import Mathlib

/-!
# Geodesic sphere mesh generation (main.cc, class sphere_geometry)

A shallow embedding of the mesh generator: the deduplicating vertex table
(maybe_add_vertex), the recursive subdivider (subdivide_triangle), the dual
polygon reconstruction (initialize_dual) and the driver (initialize_geometry).

Modelling conventions.
* A finite float is a rational number; the decimal literals of the vertex
  table are taken at their decimal value.
* The glm library is not part of the source file. Its rounded operations are
  the fields of the parameter glm_ops, and every theorem below holds for all
  values of that parameter.
* A std::vector is a List, std::map is a key-ordered association list.
* int indices are Int, vector sizes are Nat (unbounded); the only size_t
  wrap-around that is modelled is verts.size() - 1 on an empty vector.
* Indexing a vector out of range is the fault out_of_bounds. The recursion of
  subdivide_triangle is bounded by a fuel argument (a bound on the recursion
  depth); exhausting it is the fault out_of_fuel. The theorems show that a
  depth bound above max_subdivisions is enough for the run to return.
-/

namespace IcosahedronDual

/-- The type glm::vec3. -/
structure vec3 where
  x : ℚ
  y : ℚ
  z : ℚ
deriving DecidableEq

/-- The comparison glm::operator< of main.cc lines 23 to 26: the lexicographic
order of std::tie (a.x, a.y, a.z), which uses only the scalar less-than. -/
def vec3.lt (a b : vec3) : Bool :=
  decide (a.x < b.x) ||
    (!decide (b.x < a.x) &&
      (decide (a.y < b.y) || (!decide (b.y < a.y) && decide (a.z < b.z))))

/-- Key equivalence used by std::map: neither key is less than the other. -/
def vec3.equiv (a b : vec3) : Bool :=
  !vec3.lt a b && !vec3.lt b a

/-- The operations of the glm library used by sphere_geometry. The library is
not in the source file, so its (rounded) float operations are parameters. -/
structure glm_ops where
  /-- vec3 + vec3 -/
  add : vec3 → vec3 → vec3
  /-- vec3 - vec3 -/
  sub : vec3 → vec3 → vec3
  /-- float * vec3 -/
  scale : ℚ → vec3 → vec3
  /-- glm::normalize -/
  normalize : vec3 → vec3
  /-- glm::length -/
  length : vec3 → ℚ
  /-- glm::cross -/
  cross : vec3 → vec3 → vec3
  /-- glm::dot -/
  dot : vec3 → vec3 → ℚ
  /-- float / float -/
  fdiv : ℚ → ℚ → ℚ
  /-- conversion of a size_t to float -/
  of_size : Nat → ℚ

/-- The struct triangle: three indices into source_verts_. -/
structure triangle where
  i0 : Int
  i1 : Int
  i2 : Int
deriving DecidableEq

/-- The struct vertex_triangles: a position and its adjacent leaf triangles. -/
structure vertex_triangles where
  position : vec3
  adjacent_triangles : List triangle
deriving DecidableEq

/-- The type gl_vertex: the tuple (position, normal). -/
abbrev gl_vertex := vec3 × vec3

/-- The data members of class sphere_geometry (geometry_ is the GPU buffer
and is left out). -/
structure sphere_geometry where
  max_subdivisions_ : Int
  dual_ : Bool
  source_verts_ : List vertex_triangles
  vert_indices_ : List (vec3 × Nat)
  verts_ : List gl_vertex
deriving DecidableEq

/-- Ways a run of the model can fail to return. -/
inductive Fault where
  | out_of_bounds
  | out_of_fuel
deriving DecidableEq

/-- The call vert_indices_.find(v): the value stored under a key equivalent
to v, if there is one. -/
def map_find : List (vec3 × Nat) → vec3 → Option Nat
  | [], _ => none
  | (k, i) :: rest, v => if vec3.equiv k v then some i else map_find rest v

/-- The call vert_indices_.insert(it, (v, index)) for a key that is absent:
the entry is placed at its position in key order. -/
def map_insert : List (vec3 × Nat) → vec3 → Nat → List (vec3 × Nat)
  | [], v, index => [(v, index)]
  | (k, i) :: rest, v, index =>
    if vec3.lt v k then (v, index) :: (k, i) :: rest
    else (k, i) :: map_insert rest v index

/-- The method maybe_add_vertex of main.cc lines 155 to 164. -/
def maybe_add_vertex (s : sphere_geometry) (v : vec3) : Int × sphere_geometry :=
  match map_find s.vert_indices_ v with
  | some i => ((i : Int), s)
  | none =>
    let index := s.source_verts_.length
    ((index : Int),
      { s with
        source_verts_ := s.source_verts_ ++ [⟨v, []⟩]
        vert_indices_ := map_insert s.vert_indices_ v index })

/-- The access source_verts_[i] with an int index. -/
def source_at (s : sphere_geometry) (i : Int) : Except Fault vertex_triangles :=
  if 0 ≤ i then
    match s.source_verts_[i.toNat]? with
    | some sv => .ok sv
    | none => .error .out_of_bounds
  else .error .out_of_bounds

/-- The statement source_verts_[i].adjacent_triangles.push_back(t). -/
def push_adjacent (s : sphere_geometry) (i : Int) (t : triangle) :
    Except Fault sphere_geometry :=
  match source_at s i with
  | .ok sv =>
    .ok { s with
      source_verts_ := s.source_verts_.set i.toNat
        { sv with adjacent_triangles := sv.adjacent_triangles ++ [t] } }
  | .error e => .error e

/-- The expression glm::normalize(0.5f * (a + b)) of lines 144 to 146. -/
def midpoint (glm : glm_ops) (a b : vec3) : vec3 :=
  glm.normalize (glm.scale (1 / 2) (glm.add a b))

/-- The expression (1.0f / 3) * (v0 + v1 + v2) of lines 85 and 132. -/
def centroid (glm : glm_ops) (v0 v1 v2 : vec3) : vec3 :=
  glm.scale (glm.fdiv 1 3) (glm.add (glm.add v0 v1) v2)

/-- The method subdivide_triangle of main.cc lines 117 to 153. The first
argument bounds the recursion depth. -/
def subdivide_triangle (glm : glm_ops) :
    Nat → sphere_geometry → Int → Int → Int → Int → Except Fault sphere_geometry
  | 0, _, _, _, _, _ => .error .out_of_fuel
  | fuel + 1, s, i0, i1, i2, level =>
    if level = s.max_subdivisions_ then
      if s.dual_ then
        match push_adjacent s i0 ⟨i0, i1, i2⟩ with
        | .error e => .error e
        | .ok s1 =>
          match push_adjacent s1 i1 ⟨i0, i1, i2⟩ with
          | .error e => .error e
          | .ok s2 => push_adjacent s2 i2 ⟨i0, i1, i2⟩
      else
        match source_at s i0, source_at s i1, source_at s i2 with
        | .ok sv0, .ok sv1, .ok sv2 =>
          let v0 := sv0.position
          let v1 := sv1.position
          let v2 := sv2.position
          let vn := centroid glm v0 v1 v2
          .ok { s with verts_ := s.verts_ ++ [(v0, vn), (v1, vn), (v2, vn)] }
        | _, _, _ => .error .out_of_bounds
    else
      match source_at s i0, source_at s i1, source_at s i2 with
      | .ok sv0, .ok sv1, .ok sv2 =>
        let v0 := sv0.position
        let v1 := sv1.position
        let v2 := sv2.position
        let r01 := maybe_add_vertex s (midpoint glm v0 v1)
        let r12 := maybe_add_vertex r01.2 (midpoint glm v1 v2)
        let r20 := maybe_add_vertex r12.2 (midpoint glm v2 v0)
        let i01 := r01.1
        let i12 := r12.1
        let i20 := r20.1
        match subdivide_triangle glm fuel r20.2 i0 i01 i20 (level + 1) with
        | .error e => .error e
        | .ok sa =>
          match subdivide_triangle glm fuel sa i01 i1 i12 (level + 1) with
          | .error e => .error e
          | .ok sb =>
            match subdivide_triangle glm fuel sb i20 i12 i2 (level + 1) with
            | .error e => .error e
            | .ok sc => subdivide_triangle glm fuel sc i01 i12 i20 (level + 1)
      | _, _, _ => .error .out_of_bounds

/-- The first loop of initialize_dual (lines 82 to 89): one face point per
adjacent triangle, accumulated into center and appended to verts. -/
def face_points (glm : glm_ops) (s : sphere_geometry) :
    List triangle → vec3 → List vec3 → Except Fault (vec3 × List vec3)
  | [], center, verts => .ok (center, verts)
  | tri :: rest, center, verts =>
    match source_at s tri.i0, source_at s tri.i1, source_at s tri.i2 with
    | .ok sv0, .ok sv1, .ok sv2 =>
      let vn := glm.normalize (centroid glm sv0.position sv1.position sv2.position)
      face_points glm s rest (glm.add center vn) (verts ++ [vn])
    | _, _, _ => .error .out_of_bounds

/-- The scan of std::min_element after its first element: smallest is the
index of the current minimum b, first the index of the head of the list. -/
def min_element_scan (comp : vec3 → vec3 → Bool) :
    List vec3 → Nat → Nat → vec3 → Nat
  | [], _, smallest, _ => smallest
  | a :: rest, first, smallest, b =>
    if comp a b then min_element_scan comp rest (first + 1) first a
    else min_element_scan comp rest (first + 1) smallest b

/-- The call std::min_element(std::next(verts.begin(), first), verts.end(), comp),
as an index into verts (verts.size() stands for verts.end()). -/
def min_element (comp : vec3 → vec3 → Bool) (verts : List vec3) (first : Nat) : Nat :=
  match verts.drop first with
  | [] => verts.length
  | b :: rest => min_element_scan comp rest (first + 1) first b

/-- The comparator of line 93 and 94 with captured o. -/
def nearer (glm : glm_ops) (o a b : vec3) : Bool :=
  decide (glm.length (glm.sub a o) < glm.length (glm.sub b o))

/-- The value of the size_t expression verts.size() - 1, which wraps around
to SIZE_MAX on an empty vector. -/
def size_minus_one (n : Nat) : Nat :=
  if n = 0 then 2 ^ 64 - 1 else n - 1

/-- The body of the ordering loop (lines 92 to 96) at index i. -/
def order_step (glm : glm_ops) (verts : List vec3) (i : Nat) : Except Fault (List vec3) :=
  match verts[i - 1]? with
  | none => .error .out_of_bounds
  | some o =>
    let it := min_element (nearer glm o) verts i
    match verts[i]?, verts[it]? with
    | some a, some b => .ok ((verts.set i b).set it a)
    | _, _ => .error .out_of_bounds

/-- The ordering loop for (i = ...; i < verts.size() - 1; ++i) of lines 90 to
97, started at index i; the first argument bounds the number of iterations. -/
def order_loop (glm : glm_ops) : Nat → Nat → List vec3 → Except Fault (List vec3)
  | fuel, i, verts =>
    if i < size_minus_one verts.length then
      match fuel with
      | 0 => .error .out_of_fuel
      | fuel + 1 =>
        match order_step glm verts i with
        | .error e => .error e
        | .ok verts1 => order_loop glm fuel (i + 1) verts1
    else .ok verts

/-- The ordering loop as run by initialize_dual: from i = 1. The iteration
bound verts.size() + 1 is never reached: on an empty vector the first
iteration already reads out of range. -/
def order_verts (glm : glm_ops) (verts : List vec3) : Except Fault (List vec3) :=
  order_loop glm (verts.length + 1) 1 verts

/-- The emission loop of lines 106 to 113, started at index i with n
iterations left. -/
def emit_fan (verts : List vec3) (center normal : vec3) :
    Nat → Nat → List gl_vertex → Except Fault (List gl_vertex)
  | 0, _, out => .ok out
  | n + 1, i, out =>
    match verts[i]?, verts[(i + 1) % verts.length]? with
    | some a, some b =>
      emit_fan verts center normal n (i + 1)
        (out ++ [(center, normal), (a, normal), (b, normal)])
    | _, _ => .error .out_of_bounds

/-- The polygon data computed by one iteration of the outer loop of
initialize_dual before emission: the ordered and oriented face points, the
center and the normal (lines 80 to 104). -/
def dual_polygon (glm : glm_ops) (s : sphere_geometry) (source_vert : vertex_triangles) :
    Except Fault (List vec3 × vec3 × vec3) :=
  match face_points glm s source_vert.adjacent_triangles ⟨0, 0, 0⟩ [] with
  | .error e => .error e
  | .ok (center0, verts0) =>
    match order_verts glm verts0 with
    | .error e => .error e
    | .ok verts1 =>
      let center := glm.scale (glm.fdiv 1 (glm.of_size verts1.length)) center0
      let normal := glm.normalize center
      match verts1[0]?, verts1[1]? with
      | some p0, some p1 =>
        let r := glm.cross (glm.sub p0 center) (glm.sub p1 center)
        let verts2 := if glm.dot r normal < 0 then verts1.reverse else verts1
        .ok (verts2, center, normal)
      | _, _ => .error .out_of_bounds

/-- One iteration of the outer loop of initialize_dual: the records pushed to
verts_ for one source vertex. -/
def dual_fan (glm : glm_ops) (s : sphere_geometry) (source_vert : vertex_triangles) :
    Except Fault (List gl_vertex) :=
  match dual_polygon glm s source_vert with
  | .error e => .error e
  | .ok (verts, center, normal) => emit_fan verts center normal verts.length 0 []

/-- The outer loop of initialize_dual over the remaining source vertices;
out is verts_. -/
def initialize_dual_loop (glm : glm_ops) (s : sphere_geometry) :
    List vertex_triangles → List gl_vertex → Except Fault (List gl_vertex)
  | [], out => .ok out
  | source_vert :: rest, out =>
    match dual_fan glm s source_vert with
    | .error e => .error e
    | .ok recs => initialize_dual_loop glm s rest (out ++ recs)

/-- The method initialize_dual of main.cc lines 76 to 115. -/
def initialize_dual (glm : glm_ops) (s : sphere_geometry) : Except Fault sphere_geometry :=
  match initialize_dual_loop glm s s.source_verts_ s.verts_ with
  | .error e => .error e
  | .ok out => .ok { s with verts_ := out }

/-- The table icosahedron_verts of lines 48 to 51. -/
def icosahedron_verts : List vec3 :=
  [⟨0, -0.525731, 0.850651⟩, ⟨0.850651, 0, 0.525731⟩, ⟨0.850651, 0, -0.525731⟩,
   ⟨-0.850651, 0, -0.525731⟩, ⟨-0.850651, 0, 0.525731⟩, ⟨-0.525731, 0.850651, 0⟩,
   ⟨0.525731, 0.850651, 0⟩, ⟨0.525731, -0.850651, 0⟩, ⟨-0.525731, -0.850651, 0⟩,
   ⟨0, -0.525731, -0.850651⟩, ⟨0, 0.525731, -0.850651⟩, ⟨0, 0.525731, 0.850651⟩]

/-- The table icosahedron_tris of lines 52 to 55 (1-based corner indices). -/
def icosahedron_tris : List (Int × Int × Int) :=
  [(2, 3, 7), (2, 8, 3), (4, 5, 6), (5, 4, 9), (7, 6, 12),
   (6, 7, 11), (10, 11, 3), (11, 10, 4), (8, 9, 10), (9, 8, 1),
   (12, 1, 2), (1, 12, 5), (7, 3, 11), (2, 7, 12), (4, 6, 11),
   (6, 5, 12), (3, 8, 10), (8, 2, 1), (4, 10, 9), (5, 9, 1)]

/-- The loop of lines 57 to 60: every table vertex goes through
maybe_add_vertex, the returned index is dropped. -/
def add_base_vertices (s : sphere_geometry) : List vec3 → sphere_geometry
  | [] => s
  | v :: rest => add_base_vertices (maybe_add_vertex s v).2 rest

/-- The loop of lines 62 to 68: each row is shifted to 0-based indices and
subdivided from level 0. -/
def subdivide_base (glm : glm_ops) (fuel : Nat) :
    List (Int × Int × Int) → sphere_geometry → Except Fault sphere_geometry
  | [], s => .ok s
  | (t0, t1, t2) :: rest, s =>
    match subdivide_triangle glm fuel s (t0 - 1) (t1 - 1) (t2 - 1) 0 with
    | .error e => .error e
    | .ok s1 => subdivide_base glm fuel rest s1

/-- The first two loops of initialize_geometry (lines 57 to 68): the state
before the test of dual_. -/
def subdivide_all (glm : glm_ops) (fuel : Nat) (s : sphere_geometry) :
    Except Fault sphere_geometry :=
  subdivide_base glm fuel icosahedron_tris (add_base_vertices s icosahedron_verts)

/-- The method initialize_geometry of main.cc lines 46 to 74 (without the
upload geometry_.set_data). -/
def initialize_geometry (glm : glm_ops) (fuel : Nat) (s : sphere_geometry) :
    Except Fault sphere_geometry :=
  match subdivide_all glm fuel s with
  | .error e => .error e
  | .ok s1 => if s1.dual_ then initialize_dual glm s1 else .ok s1

/-- The constructor sphere_geometry(max_subdivisions, dual) of lines 32 to 37:
the members are initialised and initialize_geometry runs. No test of
max_subdivisions is made. -/
def sphere_geometry.construct (glm : glm_ops) (fuel : Nat) (max_subdivisions : Int)
    (dual : Bool) : Except Fault sphere_geometry :=
  initialize_geometry glm fuel ⟨max_subdivisions, dual, [], [], []⟩

/-! ## Invariants and measures used in the statements -/

/-- An int index that is in range for source_verts_. -/
def valid_index (s : sphere_geometry) (i : Int) : Prop :=
  0 ≤ i ∧ i < (s.source_verts_.length : Int)

/-- Every index stored in vert_indices_ is in range for source_verts_. -/
def map_ok (s : sphere_geometry) : Prop :=
  ∀ p ∈ s.vert_indices_, p.2 < s.source_verts_.length

/-- The three corners of a triangle are in range for source_verts_. -/
def triangle_ok (s : sphere_geometry) (t : triangle) : Prop :=
  valid_index s t.i0 ∧ valid_index s t.i1 ∧ valid_index s t.i2

/-- Every triangle of every adjacency list has corners in range. -/
def tris_ok (s : sphere_geometry) : Prop :=
  ∀ sv ∈ s.source_verts_, ∀ t ∈ sv.adjacent_triangles, triangle_ok s t

/-- Length of the adjacency list stored at index j (0 when j is out of range). -/
def adj_len (s : sphere_geometry) (j : Nat) : Nat :=
  match s.source_verts_[j]? with
  | some sv => sv.adjacent_triangles.length
  | none => 0

/-- Total number of entries of all adjacency lists. -/
def adj_total (s : sphere_geometry) : Nat :=
  (s.source_verts_.map (fun sv => sv.adjacent_triangles.length)).sum

/-- Indicator of i = j for an int index i and a vector position j. -/
def ind (i : Int) (j : Nat) : Nat :=
  if i = (j : Int) then 1 else 0

/-- Number of the corners i0, i1, i2 that equal j. -/
def corner_count (j : Nat) (i0 i1 i2 : Int) : Nat :=
  ind i0 j + ind i1 j + ind i2 j

/-- Postcondition of a call of subdivide_triangle made n levels above the
leaves, from state s to state s1. -/
def sub_post (n : Nat) (i0 i1 i2 : Int) (s s1 : sphere_geometry) : Prop :=
  s1.max_subdivisions_ = s.max_subdivisions_ ∧ s1.dual_ = s.dual_ ∧ map_ok s1 ∧ tris_ok s1 ∧
  s.source_verts_.length ≤ s1.source_verts_.length ∧
  (∀ j, adj_len s j ≤ adj_len s1 j) ∧
  (s.dual_ = false → s1.verts_.length = s.verts_.length + 3 * 4 ^ n) ∧
  (s.dual_ = true → s1.verts_ = s.verts_ ∧ adj_total s1 = adj_total s + 3 * 4 ^ n ∧
    (∀ j, adj_len s j + corner_count j i0 i1 i2 ≤ adj_len s1 j) ∧
    (∀ j, s.source_verts_.length ≤ j → j < s1.source_verts_.length → 2 ≤ adj_len s1 j) ∧
    (n = 0 → s1.source_verts_.length = s.source_verts_.length ∧
      ∀ j, adj_len s1 j = adj_len s j + corner_count j i0 i1 i2))

/-- Number of corner occurrences of index j in the rows of a 1-based
triangle table. -/
def rows_count (j : Nat) (rows : List (Int × Int × Int)) : Nat :=
  (rows.map (fun r => corner_count j (r.1 - 1) (r.2.1 - 1) (r.2.2 - 1))).sum

/-- Every row of a 1-based triangle table names valid vertices of s. -/
def rows_ok (s : sphere_geometry) (rows : List (Int × Int × Int)) : Prop :=
  ∀ r ∈ rows, valid_index s (r.1 - 1) ∧ valid_index s (r.2.1 - 1) ∧ valid_index s (r.2.2 - 1)

/-- Postcondition of the subdivision loop over a list of rows, n levels
above the leaves. -/
def base_post (n : Nat) (rows : List (Int × Int × Int)) (s s1 : sphere_geometry) : Prop :=
  s1.max_subdivisions_ = s.max_subdivisions_ ∧ s1.dual_ = s.dual_ ∧ map_ok s1 ∧ tris_ok s1 ∧
  s.source_verts_.length ≤ s1.source_verts_.length ∧
  (s.dual_ = false → s1.verts_.length = s.verts_.length + rows.length * (3 * 4 ^ n)) ∧
  (s.dual_ = true → s1.verts_ = s.verts_ ∧
    adj_total s1 = adj_total s + rows.length * (3 * 4 ^ n) ∧
    (∀ j, adj_len s j + rows_count j rows ≤ adj_len s1 j) ∧
    (∀ j, s.source_verts_.length ≤ j → j < s1.source_verts_.length → 2 ≤ adj_len s1 j) ∧
    (n = 0 → s1.source_verts_.length = s.source_verts_.length ∧
      ∀ j, adj_len s1 j = adj_len s j + rows_count j rows))

/-- A fixed-point square root on rationals (eight decimal digits). -/
def sqrt_fixed (q : ℚ) : ℚ :=
  (Nat.sqrt (Int.toNat ⌊q * 10 ^ 16⌋) : ℚ) / 10 ^ 8

/-- A concrete instance of the glm operations: exact rational arithmetic with
a fixed-point square root. It is used to state closed instances of the
theorems. -/
def glm_fixed : glm_ops where
  add a b := ⟨a.x + b.x, a.y + b.y, a.z + b.z⟩
  sub a b := ⟨a.x - b.x, a.y - b.y, a.z - b.z⟩
  scale c a := ⟨c * a.x, c * a.y, c * a.z⟩
  dot a b := a.x * b.x + a.y * b.y + a.z * b.z
  cross a b := ⟨a.y * b.z - b.y * a.z, a.z * b.x - b.z * a.x, a.x * b.y - b.x * a.y⟩
  length a := sqrt_fixed (a.x * a.x + a.y * a.y + a.z * a.z)
  normalize a :=
    let l := sqrt_fixed (a.x * a.x + a.y * a.y + a.z * a.z)
    ⟨a.x / l, a.y / l, a.z / l⟩
  fdiv a b := a / b
  of_size n := n

/-- The adjacency list stored at index j (empty when j is out of range). -/
def adj_list (s : sphere_geometry) (j : Nat) : List triangle :=
  match s.source_verts_[j]? with
  | some sv => sv.adjacent_triangles
  | none => []

/-- Number of rows of a 1-based triangle table that have the 0-based index j
as a corner. -/
def rows_with_corner (j : Nat) (rows : List (Int × Int × Int)) : Nat :=
  (rows.filter (fun r =>
    decide (r.1 - 1 = (j : Int) ∨ r.2.1 - 1 = (j : Int) ∨ r.2.2 - 1 = (j : Int)))).length

/-- A position whose magnitude differs from 1 by at most 1e-5, stated on the
squared magnitude. -/
def near_unit (v : vec3) : Prop :=
  (1 - 1 / 100000) ^ 2 ≤ v.x ^ 2 + v.y ^ 2 + v.z ^ 2 ∧
    v.x ^ 2 + v.y ^ 2 + v.z ^ 2 ≤ (1 + 1 / 100000) ^ 2

/-! ## The deduplication index -/

theorem vec3.equiv_iff (a b : vec3) : vec3.equiv a b = true ↔ a = b := by
  obtain ⟨ax, ay, az⟩ := a
  obtain ⟨bx, by1, bz⟩ := b
  simp only [vec3.equiv, vec3.lt, Bool.and_eq_true, Bool.not_eq_true', Bool.or_eq_false_iff,
    decide_eq_false_iff_not, Bool.and_eq_false_iff, Bool.not_eq_false', decide_eq_true_eq,
    Bool.or_eq_true, not_lt, vec3.mk.injEq]
  constructor
  · rintro ⟨⟨h1, h2⟩, ⟨h3, h4⟩⟩
    have hx : ax = bx := le_antisymm h3 h1
    subst hx
    simp only [lt_irrefl, false_or, not_lt] at h2 h4
    obtain ⟨h5, h6⟩ := h2
    obtain ⟨h7, h8⟩ := h4
    have hy : ay = by1 := le_antisymm h7 h5
    subst hy
    simp only [lt_irrefl, false_or, not_lt] at h6 h8
    exact ⟨rfl, rfl, le_antisymm h8 h6⟩
  · rintro ⟨rfl, rfl, rfl⟩
    simp

theorem map_find_mem (m : List (vec3 × Nat)) (v : vec3) (i : Nat)
    (h : map_find m v = some i) : ∃ k, (k, i) ∈ m := by
  induction m with
  | nil => simp [map_find] at h
  | cons p rest ih =>
    obtain ⟨k, j⟩ := p
    simp only [map_find] at h
    split at h
    · exact ⟨k, by simp_all⟩
    · obtain ⟨k1, hk1⟩ := ih h
      exact ⟨k1, List.mem_cons_of_mem _ hk1⟩

theorem map_insert_perm (m : List (vec3 × Nat)) (v : vec3) (i : Nat) :
    (map_insert m v i).Perm ((v, i) :: m) := by
  induction m with
  | nil => simp [map_insert]
  | cons p rest ih =>
    obtain ⟨k, j⟩ := p
    simp only [map_insert]
    split
    · exact List.Perm.refl _
    · exact (List.Perm.cons _ ih).trans (List.Perm.swap _ _ _)

theorem map_find_insert_self (m : List (vec3 × Nat)) (v : vec3) (i : Nat)
    (h : map_find m v = none) : map_find (map_insert m v i) v = some i := by
  induction m with
  | nil => simp [map_insert, map_find, (vec3.equiv_iff v v).2 rfl]
  | cons p rest ih =>
    obtain ⟨k, j⟩ := p
    simp only [map_find] at h
    split at h
    · exact absurd h (by simp)
    · rename_i hk
      simp only [map_insert]
      split
      · simp [map_find, (vec3.equiv_iff v v).2 rfl]
      · simp only [map_find, hk]
        exact ih h

theorem map_find_insert_other (m : List (vec3 × Nat)) (v w : vec3) (i : Nat)
    (hne : v ≠ w) : map_find (map_insert m v i) w = map_find m w := by
  have hvw : vec3.equiv v w = false := by
    cases h : vec3.equiv v w
    · rfl
    · exact absurd ((vec3.equiv_iff v w).1 h) hne
  induction m with
  | nil => simp [map_insert, map_find, hvw]
  | cons p rest ih =>
    obtain ⟨k, j⟩ := p
    simp only [map_insert]
    split
    · simp [map_find, hvw]
    · simp only [map_find, ih]

/-! ## The recursive subdivider -/

theorem source_at_ok (s : sphere_geometry) (i : Int) (h : valid_index s i) :
    ∃ sv, source_at s i = .ok sv ∧ s.source_verts_[i.toNat]? = some sv := by
  obtain ⟨h0, h1⟩ := h
  have hlt : i.toNat < s.source_verts_.length := by omega
  refine ⟨s.source_verts_[i.toNat], ?_, ?_⟩
  · simp [source_at, h0, List.getElem?_eq_getElem hlt]
  · exact List.getElem?_eq_getElem hlt

theorem sum_map_set {α : Type} (f : α → Nat) (l : List α) (i : Nat) (x y : α)
    (h : l[i]? = some y) : ((l.set i x).map f).sum + f y = (l.map f).sum + f x := by
  induction l generalizing i with
  | nil => simp at h
  | cons a rest ih =>
    cases i with
    | zero =>
      simp only [List.getElem?_cons_zero, Option.some.injEq] at h
      subst h
      simp only [List.set, List.map, List.sum_cons]
      omega
    | succ k =>
      simp only [List.getElem?_cons_succ] at h
      have := ih k h
      simp only [List.set, List.map, List.sum_cons]
      omega

theorem triangle_ok_mono (s s1 : sphere_geometry) (t : triangle)
    (h : s.source_verts_.length ≤ s1.source_verts_.length) (ht : triangle_ok s t) :
    triangle_ok s1 t := by
  simp only [triangle_ok, valid_index] at ht ⊢
  omega

theorem push_adjacent_spec (s : sphere_geometry) (i : Int) (t : triangle)
    (h : valid_index s i) :
    ∃ s1, push_adjacent s i t = .ok s1 ∧ s1.max_subdivisions_ = s.max_subdivisions_ ∧
      s1.dual_ = s.dual_ ∧ s1.verts_ = s.verts_ ∧ s1.vert_indices_ = s.vert_indices_ ∧
      s1.source_verts_.length = s.source_verts_.length ∧
      (∀ j, adj_len s1 j = adj_len s j + ind i j) ∧
      adj_total s1 = adj_total s + 1 ∧
      (tris_ok s → triangle_ok s t → tris_ok s1) := by
  obtain ⟨sv, hsv, hget⟩ := source_at_ok s i h
  obtain ⟨h0, h1⟩ := h
  have hlt : i.toNat < s.source_verts_.length := by omega
  have hpush : push_adjacent s i t = .ok { s with
      source_verts_ := s.source_verts_.set i.toNat
        (vertex_triangles.mk sv.position (sv.adjacent_triangles ++ [t])) } := by
    simp only [push_adjacent, hsv]
  refine ⟨_, hpush, rfl, rfl, rfl, rfl, by simp, ?_, ?_, ?_⟩
  · intro j
    by_cases hij : i = (j : Int)
    · have hj : i.toNat = j := by omega
      rw [ind, if_pos hij]
      rw [hj] at hget hlt
      simp only [adj_len, List.getElem?_set, hj, hlt, hget, if_true,
        List.length_append, List.length_singleton]
    · have hj : i.toNat ≠ j := by omega
      rw [ind, if_neg hij]
      simp only [adj_len, List.getElem?_set, hj, if_false, Nat.add_zero]
  · have := sum_map_set (fun sv : vertex_triangles => sv.adjacent_triangles.length)
      s.source_verts_ i.toNat (vertex_triangles.mk sv.position (sv.adjacent_triangles ++ [t]))
      sv hget
    simp only [adj_total]
    simp only [List.length_append, List.length_singleton] at this
    omega
  · intro hok ht sv1 hsv1 t1 ht1
    apply triangle_ok_mono s _ t1 (by simp)
    rcases List.mem_or_eq_of_mem_set hsv1 with hmem | heq
    · exact hok sv1 hmem t1 ht1
    · subst heq
      simp only [List.mem_append, List.mem_singleton] at ht1
      rcases ht1 with hold | hnew
      · exact hok sv (List.getElem?_mem hget) t1 hold
      · subst hnew
        exact ht

theorem maybe_add_vertex_spec (s : sphere_geometry) (v : vec3) :
    (maybe_add_vertex s v).2.max_subdivisions_ = s.max_subdivisions_ ∧
    (maybe_add_vertex s v).2.dual_ = s.dual_ ∧
    (maybe_add_vertex s v).2.verts_ = s.verts_ ∧
    (map_ok s → map_ok (maybe_add_vertex s v).2 ∧
      valid_index (maybe_add_vertex s v).2 (maybe_add_vertex s v).1) ∧
    ((maybe_add_vertex s v).2.source_verts_ = s.source_verts_ ∨
      ((maybe_add_vertex s v).2.source_verts_ = s.source_verts_ ++ [⟨v, []⟩] ∧
        (maybe_add_vertex s v).1 = (s.source_verts_.length : Int))) := by
  cases h : map_find s.vert_indices_ v with
  | some i =>
    simp only [maybe_add_vertex, h, true_and, true_or, and_true]
    intro hok
    refine ⟨hok, ?_⟩
    obtain ⟨k, hk⟩ := map_find_mem _ _ _ h
    have := hok _ hk
    simp only [valid_index]
    omega
  | none =>
    simp only [maybe_add_vertex, h, true_and, and_self, or_true, and_true]
    intro hok
    constructor
    · intro p hp
      simp only at hp
      have hp1 := (map_insert_perm _ _ _).mem_iff.1 hp
      simp only [List.length_append, List.length_singleton]
      rcases List.mem_cons.1 hp1 with h1 | h1
      · subst h1
        simp
      · have := hok p h1
        omega
    · simp [valid_index]

theorem valid_index_mono (s s1 : sphere_geometry) (i : Int)
    (h : s.source_verts_.length ≤ s1.source_verts_.length) (hi : valid_index s i) :
    valid_index s1 i := by
  simp only [valid_index] at hi ⊢
  omega

theorem tris_ok_append (s s1 : sphere_geometry) (v : vec3)
    (h : s1.source_verts_ = s.source_verts_ ++ [⟨v, []⟩]) (hok : tris_ok s) : tris_ok s1 := by
  intro sv hsv t ht
  rw [h] at hsv
  have hlen : s.source_verts_.length ≤ s1.source_verts_.length := by simp [h]
  rcases List.mem_append.1 hsv with h1 | h1
  · exact triangle_ok_mono s s1 t hlen (hok sv h1 t ht)
  · simp only [List.mem_singleton] at h1
    subst h1
    simp at ht

theorem maybe_add_vertex_keeps (s : sphere_geometry) (v : vec3) :
    s.source_verts_.length ≤ (maybe_add_vertex s v).2.source_verts_.length ∧
    (∀ j, adj_len (maybe_add_vertex s v).2 j = adj_len s j) ∧
    adj_total (maybe_add_vertex s v).2 = adj_total s ∧
    (tris_ok s → tris_ok (maybe_add_vertex s v).2) ∧
    (∀ j : Nat, s.source_verts_.length ≤ j →
      j < (maybe_add_vertex s v).2.source_verts_.length → (maybe_add_vertex s v).1 = (j : Int)) := by
  obtain ⟨_, _, _, _, h5⟩ := maybe_add_vertex_spec s v
  rcases h5 with h5 | ⟨h5, h6⟩
  · refine ⟨by rw [h5], ?_, ?_, ?_, ?_⟩
    · intro j
      simp only [adj_len, h5]
    · simp only [adj_total, h5]
    · intro hok sv hsv t ht
      rw [h5] at hsv
      exact triangle_ok_mono s _ t (by rw [h5]) (hok sv hsv t ht)
    · intro j h1 h2
      rw [h5] at h2
      omega
  · refine ⟨by simp [h5], ?_, ?_, ?_, ?_⟩
    · intro j
      simp only [adj_len, h5]
      by_cases hj : j < s.source_verts_.length
      · rw [List.getElem?_append_left hj]
      · have hj1 : s.source_verts_.length ≤ j := by omega
        rw [List.getElem?_append_right hj1, List.getElem?_eq_none hj1]
        cases hk : j - s.source_verts_.length with
        | zero => simp
        | succ k => simp
    · simp [adj_total, h5]
    · exact tris_ok_append s _ v h5
    · intro j h1 h2
      rw [h5] at h2
      simp only [List.length_append, List.length_singleton] at h2
      rw [h6]
      omega

theorem ind_self (i : Int) (j : Nat) (h : i = (j : Int)) : ind i j = 1 := by
  simp [ind, h]

theorem subdivide_triangle_spec (glm : glm_ops) :
    ∀ (n fuel : Nat) (s : sphere_geometry) (i0 i1 i2 level : Int),
      n < fuel → map_ok s → tris_ok s →
      valid_index s i0 → valid_index s i1 → valid_index s i2 →
      s.max_subdivisions_ = level + (n : Int) →
      ∃ s1, subdivide_triangle glm fuel s i0 i1 i2 level = .ok s1 ∧ sub_post n i0 i1 i2 s s1 := by
  intro n
  induction n with
  | zero =>
    intro fuel s i0 i1 i2 level hfuel hmap htris h0 h1 h2 hmax
    obtain ⟨f, rfl⟩ : ∃ f, fuel = f + 1 := ⟨fuel - 1, by omega⟩
    have hlev : level = s.max_subdivisions_ := by omega
    cases hd : s.dual_ with
    | true =>
      have ht : triangle_ok s ⟨i0, i1, i2⟩ := ⟨h0, h1, h2⟩
      obtain ⟨s1, e1, a1, b1, c1, d1, l1, j1, t1, k1⟩ := push_adjacent_spec s i0 ⟨i0, i1, i2⟩ h0
      have h1a : valid_index s1 i1 := valid_index_mono s s1 i1 (by omega) h1
      obtain ⟨s2, e2, a2, b2, c2, d2, l2, j2, t2, k2⟩ := push_adjacent_spec s1 i1 ⟨i0, i1, i2⟩ h1a
      have h2a : valid_index s2 i2 := valid_index_mono s s2 i2 (by omega) h2
      obtain ⟨s3, e3, a3, b3, c3, d3, l3, j3, t3, k3⟩ := push_adjacent_spec s2 i2 ⟨i0, i1, i2⟩ h2a
      refine ⟨s3, ?_, ?_⟩
      · simp only [subdivide_triangle, hlev, hd, if_true, e1, e2, e3]
      · have ht1 := triangle_ok_mono s s1 _ (by omega) ht
        have ht2 := triangle_ok_mono s s2 _ (by omega) ht
        have hm3 : map_ok s3 := by
          intro p hp
          rw [d3, d2, d1] at hp
          have := hmap p hp
          omega
        refine ⟨by rw [a3, a2, a1], by rw [b3, b2, b1], hm3, k3 (k2 (k1 htris ht) ht1) ht2,
          by omega, ?_, ?_, ?_⟩
        · intro j
          rw [j3, j2, j1]
          omega
        · intro hf
          rw [hd] at hf
          exact absurd hf (by simp)
        · intro _
          refine ⟨by rw [c3, c2, c1], by omega, ?_, ?_, ?_⟩
          · intro j
            rw [j3, j2, j1, corner_count]
            omega
          · intro j hj1 hj2
            omega
          · intro _
            refine ⟨by omega, ?_⟩
            intro j
            rw [j3, j2, j1, corner_count]
            omega
    | false =>
      obtain ⟨sv0, e0, _⟩ := source_at_ok s i0 h0
      obtain ⟨sv1, e1, _⟩ := source_at_ok s i1 h1
      obtain ⟨sv2, e2, _⟩ := source_at_ok s i2 h2
      have e : subdivide_triangle glm (f + 1) s i0 i1 i2 level = .ok { s with
          verts_ := s.verts_ ++
            [(sv0.position, centroid glm sv0.position sv1.position sv2.position),
             (sv1.position, centroid glm sv0.position sv1.position sv2.position),
             (sv2.position, centroid glm sv0.position sv1.position sv2.position)] } := by
        simp only [subdivide_triangle, hlev, hd, if_true, e0, e1, e2]
        rfl
      refine ⟨_, e, ?_⟩
      · refine ⟨rfl, rfl, hmap, htris, le_refl _, fun j => le_refl _, ?_, ?_⟩
        · intro _
          simp
        · intro hf
          rw [hd] at hf
          exact absurd hf (by simp)
  | succ n ih =>
    intro fuel s i0 i1 i2 level hfuel hmap htris h0 h1 h2 hmax
    obtain ⟨f, rfl⟩ : ∃ f, fuel = f + 1 := ⟨fuel - 1, by omega⟩
    have hf : n < f := by omega
    have hlev : ¬ level = s.max_subdivisions_ := by
      push_cast at hmax
      omega
    obtain ⟨sv0, e0, _⟩ := source_at_ok s i0 h0
    obtain ⟨sv1, e1, _⟩ := source_at_ok s i1 h1
    obtain ⟨sv2, e2, _⟩ := source_at_ok s i2 h2
    simp only [subdivide_triangle, if_neg hlev, e0, e1, e2]
    -- the three midpoints
    obtain ⟨m1a, m1b, m1c, m1d, _⟩ := maybe_add_vertex_spec s (midpoint glm sv0.position sv1.position)
    obtain ⟨k1a, k1b, k1c, k1d, k1e⟩ :=
      maybe_add_vertex_keeps s (midpoint glm sv0.position sv1.position)
    generalize maybe_add_vertex s (midpoint glm sv0.position sv1.position) = r01 at *
    obtain ⟨hmap1, hv01⟩ := m1d hmap
    obtain ⟨m2a, m2b, m2c, m2d, _⟩ :=
      maybe_add_vertex_spec r01.2 (midpoint glm sv1.position sv2.position)
    obtain ⟨k2a, k2b, k2c, k2d, k2e⟩ :=
      maybe_add_vertex_keeps r01.2 (midpoint glm sv1.position sv2.position)
    generalize maybe_add_vertex r01.2 (midpoint glm sv1.position sv2.position) = r12 at *
    obtain ⟨hmap2, hv12⟩ := m2d hmap1
    obtain ⟨m3a, m3b, m3c, m3d, _⟩ :=
      maybe_add_vertex_spec r12.2 (midpoint glm sv2.position sv0.position)
    obtain ⟨k3a, k3b, k3c, k3d, k3e⟩ :=
      maybe_add_vertex_keeps r12.2 (midpoint glm sv2.position sv0.position)
    generalize maybe_add_vertex r12.2 (midpoint glm sv2.position sv0.position) = r20 at *
    obtain ⟨hmap3, hv20⟩ := m3d hmap2
    have htris3 : tris_ok r20.2 := k3d (k2d (k1d htris))
    have hmax3 : r20.2.max_subdivisions_ = (level + 1) + (n : Int) := by
      rw [m3a, m2a, m1a, hmax]
      push_cast
      ring
    have hd3 : r20.2.dual_ = s.dual_ := by rw [m3b, m2b, m1b]
    have vi : ∀ (t : sphere_geometry) (i : Int),
        r20.2.source_verts_.length ≤ t.source_verts_.length →
        (valid_index s i ∨ valid_index r01.2 i ∨ valid_index r12.2 i ∨ valid_index r20.2 i) →
        valid_index t i := by
      intro t i hle hi
      simp only [valid_index] at hi ⊢
      omega
    -- child 1
    obtain ⟨sa, eA, pA1, pA2, pA3, pA4, pA5, pA6, pA7, pA8⟩ :=
      ih f r20.2 i0 r01.1 r20.1 (level + 1) hf hmap3 htris3
        (vi _ _ (le_refl _) (Or.inl h0)) (vi _ _ (le_refl _) (Or.inr (Or.inl hv01)))
        (vi _ _ (le_refl _) (Or.inr (Or.inr (Or.inr hv20)))) hmax3
    obtain ⟨sb, eB, pB1, pB2, pB3, pB4, pB5, pB6, pB7, pB8⟩ :=
      ih f sa r01.1 i1 r12.1 (level + 1) hf pA3 pA4
        (vi _ _ pA5 (Or.inr (Or.inl hv01))) (vi _ _ pA5 (Or.inl h1))
        (vi _ _ pA5 (Or.inr (Or.inr (Or.inl hv12)))) (by rw [pA1, hmax3])
    obtain ⟨sc, eC, pC1, pC2, pC3, pC4, pC5, pC6, pC7, pC8⟩ :=
      ih f sb r20.1 r12.1 i2 (level + 1) hf pB3 pB4
        (vi _ _ (le_trans pA5 pB5) (Or.inr (Or.inr (Or.inr hv20))))
        (vi _ _ (le_trans pA5 pB5) (Or.inr (Or.inr (Or.inl hv12))))
        (vi _ _ (le_trans pA5 pB5) (Or.inl h2)) (by rw [pB1, pA1, hmax3])
    obtain ⟨sd, eD, pD1, pD2, pD3, pD4, pD5, pD6, pD7, pD8⟩ :=
      ih f sc r01.1 r12.1 r20.1 (level + 1) hf pC3 pC4
        (vi _ _ (le_trans pA5 (le_trans pB5 pC5)) (Or.inr (Or.inl hv01)))
        (vi _ _ (le_trans pA5 (le_trans pB5 pC5)) (Or.inr (Or.inr (Or.inl hv12))))
        (vi _ _ (le_trans pA5 (le_trans pB5 pC5)) (Or.inr (Or.inr (Or.inr hv20))))
        (by rw [pC1, pB1, pA1, hmax3])
    refine ⟨sd, by simp only [eA, eB, eC, eD], ?_⟩
    have hpow : 4 ^ (n + 1) = 4 * 4 ^ n := by ring
    refine ⟨by rw [pD1, pC1, pB1, pA1, m3a, m2a, m1a], by rw [pD2, pC2, pB2, pA2, hd3],
      pD3, pD4, by omega, ?_, ?_, ?_⟩
    · intro j
      have := pA6 j
      have := pB6 j
      have := pC6 j
      have := pD6 j
      have := k1b j
      have := k2b j
      have := k3b j
      omega
    · intro hdual
      have hA := pA7 (by rw [hd3, hdual])
      have hB := pB7 (by rw [pA2, hd3, hdual])
      have hC := pC7 (by rw [pB2, pA2, hd3, hdual])
      have hD := pD7 (by rw [pC2, pB2, pA2, hd3, hdual])
      rw [m3c, m2c, m1c] at hA
      omega
    · intro hdual
      obtain ⟨qA1, qA2, qA3, qA4, _⟩ := pA8 (by rw [hd3, hdual])
      obtain ⟨qB1, qB2, qB3, qB4, _⟩ := pB8 (by rw [pA2, hd3, hdual])
      obtain ⟨qC1, qC2, qC3, qC4, _⟩ := pC8 (by rw [pB2, pA2, hd3, hdual])
      obtain ⟨qD1, qD2, qD3, qD4, _⟩ := pD8 (by rw [pC2, pB2, pA2, hd3, hdual])
      refine ⟨by rw [qD1, qC1, qB1, qA1, m3c, m2c, m1c], by omega, ?_, ?_,
        fun h => absurd h (Nat.succ_ne_zero n)⟩
      · intro j
        have := qA3 j
        have := qB3 j
        have := qC3 j
        have := qD3 j
        have := k1b j
        have := k2b j
        have := k3b j
        simp only [corner_count] at *
        omega
      · intro j hj1 hj2
        have a3 := qA3 j
        have b3 := qB3 j
        have c3 := qC3 j
        have d3 := qD3 j
        have a4 := qA4 j
        have b4 := qB4 j
        have c4 := qC4 j
        have d4 := qD4 j
        have b6 := pB6 j
        have c6 := pC6 j
        have d6 := pD6 j
        have e1 := k1e j
        have e2 := k2e j
        have e3 := k3e j
        simp only [corner_count] at a3 b3 c3 d3
        by_cases g1 : j < r01.2.source_verts_.length
        · have := ind_self _ _ (e1 hj1 g1)
          omega
        · by_cases g2 : j < r12.2.source_verts_.length
          · have := ind_self _ _ (e2 (by omega) g2)
            omega
          · by_cases g3 : j < r20.2.source_verts_.length
            · have := ind_self _ _ (e3 (by omega) g3)
              omega
            · by_cases g4 : j < sa.source_verts_.length
              · have := a4 (by omega) g4
                omega
              · by_cases g5 : j < sb.source_verts_.length
                · have := b4 (by omega) g5
                  omega
                · by_cases g6 : j < sc.source_verts_.length
                  · have := c4 (by omega) g6
                    omega
                  · have := d4 (by omega) hj2
                    omega

/-! ## The ordering loop -/

theorem perm_set_cons {α : Type} (l : List α) (k : Nat) (a b : α) (h : l[k]? = some b) :
    (b :: l.set k a).Perm (a :: l) := by
  induction l generalizing k with
  | nil => simp at h
  | cons y rest ih =>
    cases k with
    | zero =>
      simp only [List.getElem?_cons_zero, Option.some.injEq] at h
      subst h
      exact List.Perm.swap _ _ _
    | succ k =>
      simp only [List.getElem?_cons_succ] at h
      simp only [List.set]
      exact (List.Perm.swap _ _ _).trans (((ih k h).cons y).trans (List.Perm.swap _ _ _))

theorem swap_perm {α : Type} (l : List α) (i j : Nat) (a b : α)
    (hi : l[i]? = some a) (hj : l[j]? = some b) : ((l.set i b).set j a).Perm l := by
  induction l generalizing i j with
  | nil => simp at hi
  | cons x rest ih =>
    cases i with
    | zero =>
      simp only [List.getElem?_cons_zero, Option.some.injEq] at hi
      subst hi
      cases j with
      | zero =>
        simp only [List.getElem?_cons_zero, Option.some.injEq] at hj
        subst hj
        simp [List.set]
      | succ m =>
        simp only [List.getElem?_cons_succ] at hj
        simp only [List.set]
        exact perm_set_cons rest m x b hj
    | succ k =>
      simp only [List.getElem?_cons_succ] at hi
      cases j with
      | zero =>
        simp only [List.getElem?_cons_zero, Option.some.injEq] at hj
        subst hj
        simp only [List.set]
        exact perm_set_cons rest k x a hi
      | succ m =>
        simp only [List.getElem?_cons_succ] at hj
        simp only [List.set]
        exact (ih k m hi hj).cons x

theorem drop_perm_of_agree {α : Type} (out verts : List α) (i : Nat)
    (hp : out.Perm verts) (hpre : ∀ m, m < i → out[m]? = verts[m]?) :
    (out.drop i).Perm (verts.drop i) := by
  have htake : out.take i = verts.take i := by
    apply List.ext_getElem?
    intro m
    by_cases hm : m < i
    · rw [List.getElem?_take_of_lt hm, List.getElem?_take_of_lt hm, hpre m hm]
    · rw [List.getElem?_take_eq_none (by omega), List.getElem?_take_eq_none (by omega)]
  have h1 : (out.take i ++ out.drop i).Perm (verts.take i ++ verts.drop i) := by
    rw [List.take_append_drop, List.take_append_drop]
    exact hp
  rw [htake] at h1
  exact (List.perm_append_left_iff _).1 h1

theorem min_element_scan_spec (key : vec3 → ℚ) (comp : vec3 → vec3 → Bool)
    (hcomp : ∀ a b, comp a b = decide (key a < key b)) :
    ∀ (rest : List vec3) (first smallest : Nat) (b : vec3), smallest < first →
      ∃ v, ((min_element_scan comp rest first smallest b = smallest ∧ v = b) ∨
          (first ≤ min_element_scan comp rest first smallest b ∧
            rest[min_element_scan comp rest first smallest b - first]? = some v)) ∧
        key v ≤ key b ∧ ∀ x ∈ rest, key v ≤ key x := by
  intro rest
  induction rest with
  | nil =>
    intro first smallest b _
    exact ⟨b, Or.inl ⟨rfl, rfl⟩, le_refl _, by simp⟩
  | cons a rest ih =>
    intro first smallest b hlt
    by_cases hc : key a < key b
    · have hca : comp a b = true := by rw [hcomp]; simpa using hc
      simp only [min_element_scan, hca, if_true]
      obtain ⟨v, hv, hvb, hall⟩ := ih (first + 1) first a (by omega)
      refine ⟨v, Or.inr ?_, le_trans hvb (le_of_lt hc), ?_⟩
      · rcases hv with ⟨h1, h2⟩ | ⟨h1, h2⟩
        · rw [h1, h2]
          simp
        · refine ⟨by omega, ?_⟩
          have : min_element_scan comp rest (first + 1) first a - first
              = (min_element_scan comp rest (first + 1) first a - (first + 1)) + 1 := by omega
          rw [this, List.getElem?_cons_succ]
          exact h2
      · intro x hx
        rcases List.mem_cons.1 hx with h | h
        · rw [h]; exact hvb
        · exact hall x h
    · have hca : comp a b = false := by rw [hcomp]; simpa using hc
      simp only [min_element_scan, hca, Bool.false_eq_true, if_false]
      obtain ⟨v, hv, hvb, hall⟩ := ih (first + 1) smallest b (by omega)
      refine ⟨v, ?_, hvb, ?_⟩
      · rcases hv with ⟨h1, h2⟩ | ⟨h1, h2⟩
        · exact Or.inl ⟨h1, h2⟩
        · refine Or.inr ⟨by omega, ?_⟩
          have : min_element_scan comp rest (first + 1) smallest b - first
              = (min_element_scan comp rest (first + 1) smallest b - (first + 1)) + 1 := by omega
          rw [this, List.getElem?_cons_succ]
          exact h2
      · intro x hx
        rcases List.mem_cons.1 hx with h | h
        · rw [h]; exact le_trans hvb (not_lt.1 hc)
        · exact hall x h

theorem min_element_spec (key : vec3 → ℚ) (comp : vec3 → vec3 → Bool)
    (hcomp : ∀ a b, comp a b = decide (key a < key b))
    (verts : List vec3) (i : Nat) (hi : i < verts.length) :
    ∃ v, i ≤ min_element comp verts i ∧ verts[min_element comp verts i]? = some v ∧
      ∀ x ∈ verts.drop i, key v ≤ key x := by
  have hdrop : verts.drop i = verts[i] :: verts.drop (i + 1) := List.drop_eq_getElem_cons hi
  obtain ⟨v, hv, hvb, hall⟩ :=
    min_element_scan_spec key comp hcomp (verts.drop (i + 1)) (i + 1) i verts[i] (by omega)
  simp only [min_element, hdrop]
  refine ⟨v, ?_, ?_, ?_⟩
  · rcases hv with ⟨h1, _⟩ | ⟨h1, _⟩ <;> omega
  · rcases hv with ⟨h1, h2⟩ | ⟨h1, h2⟩
    · rw [h1, h2]
      exact List.getElem?_eq_getElem hi
    · rw [List.getElem?_drop] at h2
      rw [← h2]
      congr 1
      omega
  · intro x hx
    rcases List.mem_cons.1 hx with h | h
    · rw [h]; exact hvb
    · exact hall x h

theorem order_step_spec (glm : glm_ops) (verts : List vec3) (i : Nat)
    (h1 : 1 ≤ i) (hi : i < verts.length) :
    ∃ verts1 o v, order_step glm verts i = .ok verts1 ∧ verts[i - 1]? = some o ∧
      verts1.Perm verts ∧ (∀ m, m < i → verts1[m]? = verts[m]?) ∧ verts1[i]? = some v ∧
      ∀ x ∈ verts.drop i, glm.length (glm.sub v o) ≤ glm.length (glm.sub x o) := by
  have ho : verts[i - 1]? = some verts[i - 1] := List.getElem?_eq_getElem (by omega)
  have ha : verts[i]? = some verts[i] := List.getElem?_eq_getElem hi
  obtain ⟨v, hle, hv, hall⟩ := min_element_spec (fun x => glm.length (glm.sub x verts[i - 1]))
    (nearer glm verts[i - 1]) (fun a b => rfl) verts i hi
  have hit : min_element (nearer glm verts[i - 1]) verts i < verts.length := by
    by_contra hcon
    rw [List.getElem?_eq_none (by omega)] at hv
    exact absurd hv (by simp)
  refine ⟨_, verts[i - 1], v, ?_, ho, swap_perm verts i _ verts[i] v ha hv, ?_, ?_, hall⟩
  · simp only [order_step, ho, ha, hv]
  · intro m hm
    rw [List.getElem?_set_ne (by omega), List.getElem?_set_ne (by omega)]
  · by_cases heq : min_element (nearer glm verts[i - 1]) verts i = i
    · rw [heq] at hv ⊢
      rw [List.getElem?_set, if_pos rfl]
      simp only [List.length_set, hi, if_true]
      rw [ha] at hv
      exact hv
    · rw [List.getElem?_set_ne heq, List.getElem?_set, if_pos rfl]
      simp [hi]

theorem order_loop_spec (glm : glm_ops) :
    ∀ (fuel i : Nat) (verts : List vec3), 1 ≤ i → 2 ≤ verts.length →
      verts.length ≤ fuel + i →
      ∃ out, order_loop glm fuel i verts = .ok out ∧ out.Perm verts ∧
        (∀ m, m < i → out[m]? = verts[m]?) ∧
        ∀ k j, i ≤ k → k + 1 < verts.length → k < j → ∀ o a b, out[k - 1]? = some o →
          out[k]? = some a → out[j]? = some b →
          glm.length (glm.sub a o) ≤ glm.length (glm.sub b o) := by
  intro fuel
  induction fuel with
  | zero =>
    intro i verts h1 h2 hf
    have hs : size_minus_one verts.length = verts.length - 1 := by
      simp only [size_minus_one]
      rw [if_neg (by omega)]
    refine ⟨verts, ?_, List.Perm.refl _, fun _ _ => rfl, ?_⟩
    · rw [order_loop, hs, if_neg (by omega)]
    · intro k j hk hk1
      omega
  | succ f ih =>
    intro i verts h1 h2 hf
    have hs : size_minus_one verts.length = verts.length - 1 := by
      simp only [size_minus_one]
      rw [if_neg (by omega)]
    by_cases hlt : i < verts.length - 1
    · obtain ⟨verts1, o, v, hstep, ho, hperm, hpre, hvi, hmin⟩ :=
        order_step_spec glm verts i h1 (by omega)
      have hlen : verts1.length = verts.length := hperm.length_eq
      obtain ⟨out, hout, hp2, hpre2, hrest⟩ := ih (i + 1) verts1 (by omega) (by omega) (by omega)
      refine ⟨out, ?_, hp2.trans hperm, ?_, ?_⟩
      · rw [order_loop, hs, if_pos hlt]
        simp only [hstep]
        exact hout
      · intro m hm
        rw [hpre2 m (by omega), hpre m hm]
      · intro k j hk hk1 hkj o1 a b ho1 ha hb
        by_cases hki : k = i
        · subst hki
          rw [hpre2 (k - 1) (by omega), hpre (k - 1) (by omega), ho] at ho1
          rw [hpre2 k (by omega), hvi] at ha
          simp only [Option.some.injEq] at ho1 ha
          subst ho1 ha
          apply hmin
          have hd1 := drop_perm_of_agree out verts1 (k + 1) hp2 hpre2
          have hd2 := drop_perm_of_agree verts1 verts k hperm hpre
          have hb1 : b ∈ out.drop (k + 1) := by
            rw [List.mem_iff_getElem?]
            refine ⟨j - (k + 1), ?_⟩
            rw [List.getElem?_drop, ← hb]
            congr 1
            omega
          have hb2 : b ∈ verts1.drop (k + 1) := hd1.mem_iff.1 hb1
          have hb3 : b ∈ verts1.drop k := by
            rw [← List.drop_drop 1 k] at hb2
            exact List.mem_of_mem_drop hb2
          exact hd2.mem_iff.1 hb3
        · exact hrest k j (by omega) (by omega) hkj o1 a b ho1 ha hb
    · refine ⟨verts, ?_, List.Perm.refl _, fun _ _ => rfl, ?_⟩
      · rw [order_loop, hs, if_neg hlt]
      · intro k j hk hk1
        omega

/-! ## The dual reconstruction and the driver -/

theorem face_points_spec (glm : glm_ops) (s : sphere_geometry) :
    ∀ (tris : List triangle) (center : vec3) (verts : List vec3),
      (∀ t ∈ tris, triangle_ok s t) →
      ∃ c vs, face_points glm s tris center verts = .ok (c, vs) ∧
        vs.length = verts.length + tris.length := by
  intro tris
  induction tris with
  | nil =>
    intro center verts _
    exact ⟨center, verts, rfl, by simp⟩
  | cons t rest ih =>
    intro center verts h
    obtain ⟨h0, h1, h2⟩ := h t (List.mem_cons_self _ _)
    obtain ⟨sv0, e0, _⟩ := source_at_ok s t.i0 h0
    obtain ⟨sv1, e1, _⟩ := source_at_ok s t.i1 h1
    obtain ⟨sv2, e2, _⟩ := source_at_ok s t.i2 h2
    obtain ⟨c, vs, hfp, hlen⟩ :=
      ih (glm.add center (glm.normalize (centroid glm sv0.position sv1.position sv2.position)))
        (verts ++ [glm.normalize (centroid glm sv0.position sv1.position sv2.position)])
        (fun t1 ht1 => h t1 (List.mem_cons_of_mem _ ht1))
    refine ⟨c, vs, ?_, ?_⟩
    · simp only [face_points, e0, e1, e2]
      exact hfp
    · simp only [List.length_append, List.length_cons, List.length_nil] at hlen ⊢
      omega

theorem emit_fan_spec (verts : List vec3) (center normal : vec3) :
    ∀ (n i : Nat) (out : List gl_vertex), i + n ≤ verts.length →
      ∃ res, emit_fan verts center normal n i out = .ok res ∧
        res.length = out.length + 3 * n := by
  intro n
  induction n with
  | zero =>
    intro i out _
    exact ⟨out, rfl, by simp⟩
  | succ n ih =>
    intro i out h
    have hi : i < verts.length := by omega
    have hm : (i + 1) % verts.length < verts.length := Nat.mod_lt _ (by omega)
    obtain ⟨res, hres, hlen⟩ := ih (i + 1)
      (out ++ [(center, normal), (verts[i], normal), (verts[(i + 1) % verts.length], normal)])
      (by omega)
    refine ⟨res, ?_, ?_⟩
    · simp only [emit_fan, List.getElem?_eq_getElem hi, List.getElem?_eq_getElem hm]
      exact hres
    · simp only [List.length_append, List.length_cons, List.length_nil] at hlen
      omega

theorem dual_polygon_spec (glm : glm_ops) (s : sphere_geometry) (sv : vertex_triangles)
    (htris : ∀ t ∈ sv.adjacent_triangles, triangle_ok s t)
    (h2 : 2 ≤ sv.adjacent_triangles.length) :
    ∃ vs c nrm, dual_polygon glm s sv = .ok (vs, c, nrm) ∧
      vs.length = sv.adjacent_triangles.length := by
  obtain ⟨c0, vs0, hfp, hlen0⟩ :=
    face_points_spec glm s sv.adjacent_triangles ⟨0, 0, 0⟩ [] htris
  simp only [List.length_nil, Nat.zero_add] at hlen0
  obtain ⟨vs1, hord, hperm, _, _⟩ :=
    order_loop_spec glm (vs0.length + 1) 1 vs0 (le_refl _) (by omega) (by omega)
  have hlen1 : vs1.length = vs0.length := hperm.length_eq
  have b0 : 0 < vs1.length := by omega
  have b1 : 1 < vs1.length := by omega
  have g0 : vs1[0]? = some vs1[0] := List.getElem?_eq_getElem b0
  have g1 : vs1[1]? = some vs1[1] := List.getElem?_eq_getElem b1
  simp only [dual_polygon, hfp, order_verts, hord, g0, g1]
  refine ⟨_, _, _, rfl, ?_⟩
  split_ifs
  · rw [List.length_reverse]
    omega
  · omega

theorem dual_fan_spec (glm : glm_ops) (s : sphere_geometry) (sv : vertex_triangles)
    (htris : ∀ t ∈ sv.adjacent_triangles, triangle_ok s t)
    (h2 : 2 ≤ sv.adjacent_triangles.length) :
    ∃ recs, dual_fan glm s sv = .ok recs ∧
      recs.length = 3 * sv.adjacent_triangles.length := by
  obtain ⟨vs, c, nrm, hp, hl⟩ := dual_polygon_spec glm s sv htris h2
  obtain ⟨recs, he, hr⟩ := emit_fan_spec vs c nrm vs.length 0 [] (by omega)
  refine ⟨recs, ?_, ?_⟩
  · simp only [dual_fan, hp]
    exact he
  · simp only [List.length_nil] at hr
    omega

theorem initialize_dual_loop_spec (glm : glm_ops) (s : sphere_geometry) :
    ∀ (svs : List vertex_triangles) (out : List gl_vertex),
      (∀ sv ∈ svs, 2 ≤ sv.adjacent_triangles.length ∧
        ∀ t ∈ sv.adjacent_triangles, triangle_ok s t) →
      ∃ res, initialize_dual_loop glm s svs out = .ok res ∧
        res.length = out.length + 3 * (svs.map (fun sv => sv.adjacent_triangles.length)).sum := by
  intro svs
  induction svs with
  | nil =>
    intro out _
    exact ⟨out, rfl, by simp⟩
  | cons sv rest ih =>
    intro out h
    obtain ⟨h2, htris⟩ := h sv (List.mem_cons_self _ _)
    obtain ⟨recs, hfan, hlen⟩ := dual_fan_spec glm s sv htris h2
    obtain ⟨res, hres, hrl⟩ := ih (out ++ recs) (fun sv1 h1 => h sv1 (List.mem_cons_of_mem _ h1))
    refine ⟨res, ?_, ?_⟩
    · simp only [initialize_dual_loop, hfan]
      exact hres
    · simp only [List.length_append, List.map_cons, List.sum_cons] at hrl ⊢
      omega

theorem initialize_dual_spec (glm : glm_ops) (s : sphere_geometry) (htris : tris_ok s)
    (h2 : ∀ sv ∈ s.source_verts_, 2 ≤ sv.adjacent_triangles.length) :
    ∃ s1, initialize_dual glm s = .ok s1 ∧ s1.source_verts_ = s.source_verts_ ∧
      s1.verts_.length = s.verts_.length + 3 * adj_total s := by
  obtain ⟨res, hres, hlen⟩ := initialize_dual_loop_spec glm s s.source_verts_ s.verts_
    (fun sv hsv => ⟨h2 sv hsv, htris sv hsv⟩)
  refine ⟨{ s with verts_ := res }, ?_, rfl, ?_⟩
  · simp only [initialize_dual, hres]
  · simpa [adj_total] using hlen

theorem adj_len_of_mem (s : sphere_geometry) (sv : vertex_triangles)
    (h : sv ∈ s.source_verts_) :
    ∃ j, j < s.source_verts_.length ∧ adj_len s j = sv.adjacent_triangles.length := by
  obtain ⟨j, hj⟩ := List.mem_iff_getElem?.1 h
  refine ⟨j, ?_, ?_⟩
  · by_contra hcon
    rw [List.getElem?_eq_none (by omega)] at hj
    exact absurd hj (by simp)
  · simp only [adj_len, hj]

theorem maybe_add_vertex_absent (s : sphere_geometry) (v : vec3)
    (h : map_find s.vert_indices_ v = none) :
    (maybe_add_vertex s v).2 = { s with
      source_verts_ := s.source_verts_ ++ [vertex_triangles.mk v []]
      vert_indices_ := map_insert s.vert_indices_ v s.source_verts_.length } := by
  simp only [maybe_add_vertex, h]

theorem add_base_vertices_spec :
    ∀ (vs : List vec3) (s : sphere_geometry), vs.Nodup →
      (∀ v ∈ vs, map_find s.vert_indices_ v = none) → map_ok s →
      (add_base_vertices s vs).source_verts_
          = s.source_verts_ ++ vs.map (fun v => vertex_triangles.mk v []) ∧
        (add_base_vertices s vs).max_subdivisions_ = s.max_subdivisions_ ∧
        (add_base_vertices s vs).dual_ = s.dual_ ∧
        (add_base_vertices s vs).verts_ = s.verts_ ∧
        map_ok (add_base_vertices s vs) := by
  intro vs
  induction vs with
  | nil =>
    intro s _ _ hmap
    exact ⟨by simp [add_base_vertices], rfl, rfl, rfl, hmap⟩
  | cons v rest ih =>
    intro s hnd hnone hmap
    obtain ⟨hv, hrest⟩ := List.nodup_cons.1 hnd
    have habs := maybe_add_vertex_absent s v (hnone v (List.mem_cons_self _ _))
    obtain ⟨_, _, _, m4, _⟩ := maybe_add_vertex_spec s v
    obtain ⟨hmap1, _⟩ := m4 hmap
    have hnone1 : ∀ w ∈ rest, map_find (maybe_add_vertex s v).2.vert_indices_ w = none := by
      intro w hw
      rw [habs]
      have hne : v ≠ w := fun h => hv (h ▸ hw)
      simp only
      rw [map_find_insert_other _ _ _ _ hne]
      exact hnone w (List.mem_cons_of_mem _ hw)
    obtain ⟨i1, i2, i3, i4, i5⟩ := ih (maybe_add_vertex s v).2 hrest hnone1 hmap1
    simp only [add_base_vertices]
    refine ⟨?_, ?_, ?_, ?_, i5⟩
    · rw [i1, habs]
      simp
    · rw [i2, habs]
    · rw [i3, habs]
    · rw [i4, habs]

theorem icosahedron_verts_nodup : icosahedron_verts.Nodup := by
  simp only [icosahedron_verts, List.nodup_cons, List.mem_cons, List.mem_singleton,
    vec3.mk.injEq, List.not_mem_nil, List.nodup_nil]
  norm_num

theorem icosahedron_tris_range :
    ∀ r ∈ icosahedron_tris, (0 ≤ r.1 - 1 ∧ r.1 - 1 < 12) ∧ (0 ≤ r.2.1 - 1 ∧ r.2.1 - 1 < 12) ∧
      (0 ≤ r.2.2 - 1 ∧ r.2.2 - 1 < 12) := by
  decide

theorem icosahedron_rows_count : ∀ j, j < 12 → rows_count j icosahedron_tris = 5 := by
  decide

theorem base_state_spec (p : Int) (d : Bool) :
    (add_base_vertices ⟨p, d, [], [], []⟩ icosahedron_verts).source_verts_
        = icosahedron_verts.map (fun v => vertex_triangles.mk v []) ∧
      (add_base_vertices ⟨p, d, [], [], []⟩ icosahedron_verts).max_subdivisions_ = p ∧
      (add_base_vertices ⟨p, d, [], [], []⟩ icosahedron_verts).dual_ = d ∧
      (add_base_vertices ⟨p, d, [], [], []⟩ icosahedron_verts).verts_ = [] ∧
      map_ok (add_base_vertices ⟨p, d, [], [], []⟩ icosahedron_verts) ∧
      tris_ok (add_base_vertices ⟨p, d, [], [], []⟩ icosahedron_verts) ∧
      adj_total (add_base_vertices ⟨p, d, [], [], []⟩ icosahedron_verts) = 0 ∧
      (∀ j, adj_len (add_base_vertices ⟨p, d, [], [], []⟩ icosahedron_verts) j = 0) ∧
      (add_base_vertices ⟨p, d, [], [], []⟩ icosahedron_verts).source_verts_.length = 12 ∧
      rows_ok (add_base_vertices ⟨p, d, [], [], []⟩ icosahedron_verts) icosahedron_tris := by
  obtain ⟨h1, h2, h3, h4, h5⟩ := add_base_vertices_spec icosahedron_verts ⟨p, d, [], [], []⟩
    icosahedron_verts_nodup (fun v _ => rfl) (fun q hq => by simp at hq)
  simp only [List.nil_append] at h1
  have hlen : (add_base_vertices ⟨p, d, [], [], []⟩ icosahedron_verts).source_verts_.length
      = 12 := by
    rw [h1]
    simp [icosahedron_verts]
  refine ⟨h1, h2, h3, h4, h5, ?_, ?_, ?_, hlen, ?_⟩
  · intro sv hsv t ht
    rw [h1] at hsv
    obtain ⟨v, _, hv⟩ := List.mem_map.1 hsv
    subst hv
    simp at ht
  · simp only [adj_total, h1, List.map_map]
    simp [icosahedron_verts]
  · intro j
    simp only [adj_len, h1, List.getElem?_map]
    cases icosahedron_verts[j]? <;> simp
  · intro r hr
    have := icosahedron_tris_range r hr
    simp only [valid_index, hlen]
    exact this

theorem rows_count_cons (j : Nat) (r : Int × Int × Int) (rest : List (Int × Int × Int)) :
    rows_count j (r :: rest)
      = corner_count j (r.1 - 1) (r.2.1 - 1) (r.2.2 - 1) + rows_count j rest := by
  simp [rows_count]

theorem subdivide_base_spec (glm : glm_ops) (n fuel : Nat) (hf : n < fuel) :
    ∀ (rows : List (Int × Int × Int)) (s : sphere_geometry), map_ok s → tris_ok s →
      rows_ok s rows → s.max_subdivisions_ = (n : Int) →
      ∃ s1, subdivide_base glm fuel rows s = .ok s1 ∧ base_post n rows s s1 := by
  intro rows
  induction rows with
  | nil =>
    intro s hmap htris _ _
    refine ⟨s, rfl, rfl, rfl, hmap, htris, le_refl _, ?_, ?_⟩
    · intro _
      simp
    · intro _
      refine ⟨rfl, by simp, ?_, ?_, ?_⟩
      · intro j
        simp [rows_count]
      · intro j h1 h2
        omega
      · intro _
        refine ⟨rfl, ?_⟩
        intro j
        simp [rows_count]
  | cons r rest ih =>
    intro s hmap htris hrows hmax
    obtain ⟨t0, t1, t2⟩ := r
    obtain ⟨v0, v1, v2⟩ := hrows (t0, t1, t2) (List.mem_cons_self _ _)
    obtain ⟨sa, eA, pA1, pA2, pA3, pA4, pA5, pA6, pA7, pA8⟩ :=
      subdivide_triangle_spec glm n fuel s (t0 - 1) (t1 - 1) (t2 - 1) 0 hf hmap htris v0 v1 v2
        (by rw [hmax]; ring)
    have hrows1 : rows_ok sa rest := by
      intro r1 hr1
      obtain ⟨w0, w1, w2⟩ := hrows r1 (List.mem_cons_of_mem _ hr1)
      exact ⟨valid_index_mono s sa _ pA5 w0, valid_index_mono s sa _ pA5 w1,
        valid_index_mono s sa _ pA5 w2⟩
    obtain ⟨sb, eB, pB1, pB2, pB3, pB4, pB5, pB6, pB7⟩ :=
      ih sa pA3 pA4 hrows1 (by rw [pA1, hmax])
    refine ⟨sb, ?_, ?_⟩
    · simp only [subdivide_base, eA]
      exact eB
    · have hmul : (rest.length + 1) * (3 * 4 ^ n) = rest.length * (3 * 4 ^ n) + 3 * 4 ^ n := by
        ring
      refine ⟨by rw [pB1, pA1], by rw [pB2, pA2], pB3, pB4, by omega, ?_, ?_⟩
      · intro hd
        have a := pA7 hd
        have b := pB6 (by rw [pA2, hd])
        simp only [List.length_cons]
        omega
      · intro hd
        obtain ⟨qA1, qA2, qA3, qA4, qA5⟩ := pA8 hd
        obtain ⟨qB1, qB2, qB3, qB4, qB5⟩ := pB7 (by rw [pA2, hd])
        refine ⟨by rw [qB1, qA1], ?_, ?_, ?_, ?_⟩
        · simp only [List.length_cons]
          omega
        · intro j
          have := qA3 j
          have := qB3 j
          rw [rows_count_cons]
          simp only
          omega
        · intro j h1 h2
          by_cases g : j < sa.source_verts_.length
          · have := qA4 j h1 g
            have := qB3 j
            omega
          · exact qB4 j (by omega) h2
        · intro hn
          obtain ⟨x1, x2⟩ := qA5 hn
          obtain ⟨y1, y2⟩ := qB5 hn
          refine ⟨by omega, ?_⟩
          intro j
          rw [y2 j, x2 j, rows_count_cons]
          simp only
          omega

theorem subdivide_all_spec (glm : glm_ops) (D fuel : Nat) (hf : D < fuel) (d : Bool) :
    ∃ s, subdivide_all glm fuel ⟨D, d, [], [], []⟩ = .ok s ∧ s.max_subdivisions_ = D ∧
      s.dual_ = d ∧ map_ok s ∧ tris_ok s ∧ 12 ≤ s.source_verts_.length ∧
      (d = false → s.verts_.length = 20 * 4 ^ D * 3) ∧
      (d = true → s.verts_ = [] ∧ adj_total s = 3 * 20 * 4 ^ D ∧
        (∀ j, j < s.source_verts_.length → 2 ≤ adj_len s j) ∧
        (D = 0 → s.source_verts_.length = 12 ∧ ∀ j, j < 12 → adj_len s j = 5)) := by
  obtain ⟨b1, b2, b3, b4, b5, b6, b7, b8, b9, b10⟩ := base_state_spec D d
  obtain ⟨s, hs, p1, p2, p3, p4, p5, p6, p7⟩ :=
    subdivide_base_spec glm D fuel hf icosahedron_tris _ b5 b6 b10 b2
  have hrows : icosahedron_tris.length = 20 := by decide
  refine ⟨s, hs, by rw [p1, b2], by rw [p2, b3], p3, p4, by omega, ?_, ?_⟩
  · intro hd
    have := p6 (by rw [b3, hd])
    rw [b4, hrows] at this
    simp only [List.length_nil] at this
    omega
  · intro hd
    obtain ⟨q1, q2, q3, q4, q5⟩ := p7 (by rw [b3, hd])
    rw [b7, hrows] at q2
    refine ⟨by rw [q1, b4], by omega, ?_, ?_⟩
    · intro j hj
      by_cases g : j < 12
      · have := q3 j
        rw [b8 j, icosahedron_rows_count j g] at this
        omega
      · exact q4 j (by omega) hj
    · intro hD
      obtain ⟨x1, x2⟩ := q5 hD
      refine ⟨by omega, ?_⟩
      intro j hj
      rw [x2 j, b8 j, icosahedron_rows_count j hj]

theorem push_adjacent_list (s : sphere_geometry) (i : Int) (t : triangle)
    (h : valid_index s i) :
    ∃ s1, push_adjacent s i t = .ok s1 ∧ s1.verts_ = s.verts_ ∧
      s1.source_verts_.length = s.source_verts_.length ∧
      ∀ j, adj_list s1 j = adj_list s j ++ List.replicate (ind i j) t := by
  obtain ⟨sv, hsv, hget⟩ := source_at_ok s i h
  obtain ⟨h0, h1⟩ := h
  have hlt : i.toNat < s.source_verts_.length := by omega
  have hpush : push_adjacent s i t = .ok { s with
      source_verts_ := s.source_verts_.set i.toNat
        (vertex_triangles.mk sv.position (sv.adjacent_triangles ++ [t])) } := by
    simp only [push_adjacent, hsv]
  refine ⟨_, hpush, rfl, by simp, ?_⟩
  intro j
  by_cases hij : i = (j : Int)
  · have hj : i.toNat = j := by omega
    rw [ind, if_pos hij]
    rw [hj] at hget hlt
    simp only [adj_list, List.getElem?_set, hj, hlt, hget, if_true, List.replicate_one]
  · have hj : i.toNat ≠ j := by omega
    rw [ind, if_neg hij]
    simp only [adj_list, List.getElem?_set, hj, if_false, List.replicate_zero, List.append_nil]

theorem subdivide_leaf_dual (glm : glm_ops) (fuel : Nat) (s : sphere_geometry)
    (i0 i1 i2 level : Int) (hd : s.dual_ = true) (hlev : level = s.max_subdivisions_)
    (h0 : valid_index s i0) (h1 : valid_index s i1) (h2 : valid_index s i2) :
    ∃ s1, subdivide_triangle glm (fuel + 1) s i0 i1 i2 level = .ok s1 ∧ s1.verts_ = s.verts_ ∧
      ∀ j, adj_list s1 j
        = adj_list s j ++ List.replicate (corner_count j i0 i1 i2) ⟨i0, i1, i2⟩ := by
  obtain ⟨s1, e1, a1, l1, j1⟩ := push_adjacent_list s i0 ⟨i0, i1, i2⟩ h0
  have h1a : valid_index s1 i1 := valid_index_mono s s1 i1 (by omega) h1
  obtain ⟨s2, e2, a2, l2, j2⟩ := push_adjacent_list s1 i1 ⟨i0, i1, i2⟩ h1a
  have h2a : valid_index s2 i2 := valid_index_mono s s2 i2 (by omega) h2
  obtain ⟨s3, e3, a3, l3, j3⟩ := push_adjacent_list s2 i2 ⟨i0, i1, i2⟩ h2a
  refine ⟨s3, ?_, by rw [a3, a2, a1], ?_⟩
  · simp only [subdivide_triangle, hlev, hd, if_true, e1, e2, e3]
  · intro j
    rw [j3, j2, j1, corner_count, List.replicate_add, List.replicate_add]
    simp only [List.append_assoc]

theorem subdivide_negative (glm : glm_ops) :
    ∀ (fuel : Nat) (s : sphere_geometry) (i0 i1 i2 level : Int),
      s.max_subdivisions_ < 0 → 0 ≤ level → map_ok s →
      valid_index s i0 → valid_index s i1 → valid_index s i2 →
      subdivide_triangle glm fuel s i0 i1 i2 level = .error .out_of_fuel := by
  intro fuel
  induction fuel with
  | zero =>
    intro s i0 i1 i2 level _ _ _ _ _ _
    rfl
  | succ f ih =>
    intro s i0 i1 i2 level hneg hlev hmap h0 h1 h2
    have hne : ¬ level = s.max_subdivisions_ := by omega
    obtain ⟨sv0, e0, _⟩ := source_at_ok s i0 h0
    obtain ⟨sv1, e1, _⟩ := source_at_ok s i1 h1
    obtain ⟨sv2, e2, _⟩ := source_at_ok s i2 h2
    simp only [subdivide_triangle, if_neg hne, e0, e1, e2]
    obtain ⟨m1a, _, _, m1d, _⟩ := maybe_add_vertex_spec s (midpoint glm sv0.position sv1.position)
    obtain ⟨k1a, _⟩ := maybe_add_vertex_keeps s (midpoint glm sv0.position sv1.position)
    generalize maybe_add_vertex s (midpoint glm sv0.position sv1.position) = r01 at *
    obtain ⟨hmap1, hv01⟩ := m1d hmap
    obtain ⟨m2a, _, _, m2d, _⟩ :=
      maybe_add_vertex_spec r01.2 (midpoint glm sv1.position sv2.position)
    obtain ⟨k2a, _⟩ := maybe_add_vertex_keeps r01.2 (midpoint glm sv1.position sv2.position)
    generalize maybe_add_vertex r01.2 (midpoint glm sv1.position sv2.position) = r12 at *
    obtain ⟨hmap2, _⟩ := m2d hmap1
    obtain ⟨m3a, _, _, m3d, _⟩ :=
      maybe_add_vertex_spec r12.2 (midpoint glm sv2.position sv0.position)
    obtain ⟨k3a, _⟩ := maybe_add_vertex_keeps r12.2 (midpoint glm sv2.position sv0.position)
    generalize maybe_add_vertex r12.2 (midpoint glm sv2.position sv0.position) = r20 at *
    obtain ⟨hmap3, hv20⟩ := m3d hmap2
    have hrec := ih r20.2 i0 r01.1 r20.1 (level + 1) (by rw [m3a, m2a, m1a]; exact hneg)
      (by omega) hmap3 (valid_index_mono s _ _ (by omega) h0)
      (valid_index_mono r01.2 _ _ (by omega) hv01) hv20
    simp only [hrec]

theorem construct_negative (glm : glm_ops) (fuel : Nat) (p : Int) (d : Bool) (hp : p < 0) :
    sphere_geometry.construct glm fuel p d = .error .out_of_fuel := by
  obtain ⟨_, b2, _, _, b5, _, _, _, _, b10⟩ := base_state_spec p d
  obtain ⟨v0, v1, v2⟩ := b10 (2, 3, 7) (by simp [icosahedron_tris])
  have h := subdivide_negative glm fuel _ (2 - 1) (3 - 1) (7 - 1) 0 (by rw [b2]; exact hp)
    (le_refl _) b5 v0 v1 v2
  simp only [sphere_geometry.construct, initialize_geometry, subdivide_all]
  rw [icosahedron_tris]
  simp only [subdivide_base, h]

theorem construct_spec (glm : glm_ops) (D fuel : Nat) (hf : D < fuel) (d : Bool) :
    ∃ s s1, subdivide_all glm fuel ⟨D, d, [], [], []⟩ = .ok s ∧
      sphere_geometry.construct glm fuel D d = .ok s1 ∧
      (d = false → s1 = s) ∧
      (d = true → s1.source_verts_ = s.source_verts_ ∧
        s1.verts_.length = 3 * (3 * 20 * 4 ^ D)) := by
  obtain ⟨s, hs, p1, p2, p3, p4, p5, p6, p7⟩ := subdivide_all_spec glm D fuel hf d
  cases d with
  | false =>
    refine ⟨s, s, hs, ?_, fun _ => rfl, fun h => absurd h (by simp)⟩
    simp only [sphere_geometry.construct, initialize_geometry, hs, p2]
    rfl
  | true =>
    obtain ⟨q1, q2, q3, _⟩ := p7 rfl
    have h2 : ∀ sv ∈ s.source_verts_, 2 ≤ sv.adjacent_triangles.length := by
      intro sv hsv
      obtain ⟨j, hj, hlen⟩ := adj_len_of_mem s sv hsv
      rw [← hlen]
      exact q3 j hj
    obtain ⟨s1, e1, r1, r2⟩ := initialize_dual_spec glm s p4 h2
    refine ⟨s, s1, hs, ?_, fun h => absurd h (by simp), fun _ => ⟨r1, ?_⟩⟩
    · simp only [sphere_geometry.construct, initialize_geometry, hs, p2, if_true]
      exact e1
    · rw [r2, q1, q2]
      simp

/-- The 12 literal base vertices have magnitude within 1e-5 of 1, although
they enter the table without being normalized. -/
theorem icosahedron_verts_near_unit : ∀ v ∈ icosahedron_verts, near_unit v := by
  intro v hv
  simp only [icosahedron_verts, List.mem_cons, List.mem_singleton, List.not_mem_nil,
    or_false] at hv
  rcases hv with h | h | h | h | h | h | h | h | h | h | h | h <;> subst h <;>
    (simp only [near_unit]; norm_num)

/-! ## The claims -/

/-- C1. Triangulated mode (dual = false) with maximum depth D. A call of
subdivide_triangle n levels above the leaves appends exactly 4^n * 3 records
to verts_ (3 records for a leaf call, n = 0, and 4^D * 3 for a call at level
0, n = D), and constructing the sphere, which subdivides the 20 base triangles
from level 0, emits exactly 20 * 4^D * 3 records. -/
theorem triangulated_vertex_count (glm : glm_ops) (D fuel : Nat) (hf : D < fuel) :
    (∀ (s : sphere_geometry) (i0 i1 i2 : Int) (n : Nat), n ≤ D →
        s.max_subdivisions_ = (D : Int) → s.dual_ = false → map_ok s → tris_ok s →
        valid_index s i0 → valid_index s i1 → valid_index s i2 →
        ∃ s1, subdivide_triangle glm fuel s i0 i1 i2 ((D : Int) - (n : Int)) = .ok s1 ∧
          s1.verts_.length = s.verts_.length + 4 ^ n * 3) ∧
    ∃ s, sphere_geometry.construct glm fuel D false = .ok s ∧
      s.verts_.length = 20 * 4 ^ D * 3 := by
  constructor
  · intro s i0 i1 i2 n hn hmax hd hmap htris h0 h1 h2
    obtain ⟨s1, e1, _, _, _, _, _, _, p7, _⟩ :=
      subdivide_triangle_spec glm n fuel s i0 i1 i2 ((D : Int) - (n : Int)) (by omega)
        hmap htris h0 h1 h2 (by rw [hmax]; ring)
    exact ⟨s1, e1, by rw [p7 hd]; ring⟩
  · obtain ⟨s, s1, hs, hc, h1, _⟩ := construct_spec glm D fuel hf false
    obtain ⟨s2, hs2, _, _, _, _, _, p6, _⟩ := subdivide_all_spec glm D fuel hf false
    have heq : s2 = s := Except.ok.inj (hs2.symm.trans hs)
    refine ⟨s1, hc, ?_⟩
    rw [h1 rfl, ← heq]
    exact p6 rfl

/-- C1, instance: depth 1 gives 80 leaf triangles, 240 records. -/
theorem triangulated_vertex_count_witness :
    1 < 2 ∧ ∃ s, sphere_geometry.construct glm_fixed 2 1 false = .ok s ∧
      s.verts_.length = 240 :=
  ⟨by decide, by simpa using (triangulated_vertex_count glm_fixed 1 2 (by decide)).2⟩

/-- C3. maybe_add_vertex is idempotent. If v is absent from the index, the
call returns the previous size of source_verts_, appends exactly the entry
(v, empty adjacency list) to the table and adds exactly the mapping from v to
that index (the lookups of all other keys are unchanged). In every state,
calling it again with the same v returns the same index and leaves the whole
state, hence source_verts_ and vert_indices_, unchanged. -/
theorem maybe_add_vertex_idempotent (s : sphere_geometry) (v : vec3) :
    (map_find s.vert_indices_ v = none →
      (maybe_add_vertex s v).1 = (s.source_verts_.length : Int) ∧
      (maybe_add_vertex s v).2.source_verts_ = s.source_verts_ ++ [⟨v, []⟩] ∧
      (maybe_add_vertex s v).2.vert_indices_.Perm
        ((v, s.source_verts_.length) :: s.vert_indices_) ∧
      (∀ w, w ≠ v → map_find (maybe_add_vertex s v).2.vert_indices_ w
        = map_find s.vert_indices_ w) ∧
      map_find (maybe_add_vertex s v).2.vert_indices_ v = some s.source_verts_.length) ∧
    maybe_add_vertex (maybe_add_vertex s v).2 v
      = ((maybe_add_vertex s v).1, (maybe_add_vertex s v).2) := by
  cases h : map_find s.vert_indices_ v with
  | some i =>
    refine ⟨fun h1 => absurd h1 (by simp), ?_⟩
    simp [maybe_add_vertex, h]
  | none =>
    have hs := map_find_insert_self s.vert_indices_ v s.source_verts_.length h
    refine ⟨fun _ => ⟨?_, ?_, ?_, ?_, ?_⟩, ?_⟩
    · simp [maybe_add_vertex, h]
    · simp [maybe_add_vertex, h]
    · simpa [maybe_add_vertex, h] using map_insert_perm _ _ _
    · intro w hw
      simpa [maybe_add_vertex, h] using map_find_insert_other _ _ _ _ (Ne.symm hw)
    · simpa [maybe_add_vertex, h] using hs
    · simp [maybe_add_vertex, h, hs]

/-- C3, instance: the first insertion into an empty table. -/
theorem maybe_add_vertex_idempotent_witness :
    map_find ([] : List (vec3 × Nat)) ⟨0, 0, 1⟩ = none ∧
      (maybe_add_vertex ⟨0, false, [], [], []⟩ ⟨0, 0, 1⟩).1 = 0 ∧
      (maybe_add_vertex ⟨0, false, [], [], []⟩ ⟨0, 0, 1⟩).2.source_verts_ = [⟨⟨0, 0, 1⟩, []⟩] ∧
      maybe_add_vertex (maybe_add_vertex ⟨0, false, [], [], []⟩ ⟨0, 0, 1⟩).2 ⟨0, 0, 1⟩
        = ((maybe_add_vertex ⟨0, false, [], [], []⟩ ⟨0, 0, 1⟩).1,
            (maybe_add_vertex ⟨0, false, [], [], []⟩ ⟨0, 0, 1⟩).2) :=
  ⟨rfl, ((maybe_add_vertex_idempotent ⟨0, false, [], [], []⟩ ⟨0, 0, 1⟩).1 rfl).1,
    ((maybe_add_vertex_idempotent ⟨0, false, [], [], []⟩ ⟨0, 0, 1⟩).1 rfl).2.1,
    (maybe_add_vertex_idempotent ⟨0, false, [], [], []⟩ ⟨0, 0, 1⟩).2⟩

/-- C4. Depth 0 in dual mode. Every 0-based vertex index 0..11 is a corner of
exactly 5 of the 20 rows of icosahedron_tris. After subdivision the table has
12 entries, each with exactly 5 adjacent triangles; initialize_dual builds for
each a polygon of exactly 5 face points and emits 5 fan triangles (15
records), so the constructor leaves 12 * 5 = 60 fan triangles, 180 records,
in verts_. -/
theorem dual_depth_zero_pentagons (glm : glm_ops) (fuel : Nat) (hf : 0 < fuel) :
    (∀ j, j < 12 → rows_with_corner j icosahedron_tris = 5) ∧
    ∃ s s1, subdivide_all glm fuel ⟨0, true, [], [], []⟩ = .ok s ∧
      s.source_verts_.length = 12 ∧
      (∀ sv ∈ s.source_verts_, sv.adjacent_triangles.length = 5 ∧
        ∃ vs c nrm recs, dual_polygon glm s sv = .ok (vs, c, nrm) ∧ vs.length = 5 ∧
          dual_fan glm s sv = .ok recs ∧ recs.length = 3 * 5) ∧
      sphere_geometry.construct glm fuel 0 true = .ok s1 ∧
      s1.source_verts_.length = 12 ∧ s1.verts_.length = 180 := by
  refine ⟨by decide, ?_⟩
  obtain ⟨s, s1, hs, hc, _, h2⟩ := construct_spec glm 0 fuel hf true
  obtain ⟨s2, hs2, _, _, _, p4, _, _, p7⟩ := subdivide_all_spec glm 0 fuel hf true
  have heq : s2 = s := Except.ok.inj (hs2.symm.trans hs)
  subst heq
  obtain ⟨_, _, _, q4⟩ := p7 rfl
  obtain ⟨hlen, h5⟩ := q4 rfl
  obtain ⟨r1, r2⟩ := h2 rfl
  simp only [Nat.cast_zero] at hs hc
  refine ⟨s2, s1, hs, hlen, ?_, hc, by rw [r1, hlen], by rw [r2]; norm_num⟩
  intro sv hsv
  obtain ⟨j, hj, hjl⟩ := adj_len_of_mem s2 sv hsv
  have h5j : sv.adjacent_triangles.length = 5 := by
    rw [← hjl]
    exact h5 j (by omega)
  obtain ⟨vs, c, nrm, hp, hl⟩ := dual_polygon_spec glm s2 sv (p4 sv hsv) (by omega)
  obtain ⟨recs, hfan, hrl⟩ := dual_fan_spec glm s2 sv (p4 sv hsv) (by omega)
  exact ⟨h5j, vs, c, nrm, recs, hp, by omega, hfan, by omega⟩

/-- C4, instance: recursion budget 1 suffices at depth 0. -/
theorem dual_depth_zero_pentagons_witness :
    0 < 1 ∧ ∃ s, sphere_geometry.construct glm_fixed 1 0 true = .ok s ∧
      s.source_verts_.length = 12 ∧ s.verts_.length = 180 := by
  refine ⟨by decide, ?_⟩
  obtain ⟨_, _, s1, _, _, _, hc, h1, h2⟩ := dual_depth_zero_pentagons glm_fixed 1 (by decide)
  exact ⟨s1, hc, h1, h2⟩

/-- C5. Dual mode with maximum depth D. A leaf call of subdivide_triangle
leaves verts_ unchanged and appends its triangle once to the adjacency list of
each of its three corners and to no other list (three recordings). After
subdivision verts_ is still empty and the adjacency lists hold 3 * (20 * 4^D)
entries in all. For every source vertex with a non-empty adjacency list of
length n, initialize_dual builds a polygon of n face points and emits n fan
triangles (3n records), so the constructor emits 3 * 20 * 4^D fan triangles. -/
theorem dual_adjacency_and_fans (glm : glm_ops) (D fuel : Nat) (hf : D < fuel) :
    (∀ (s : sphere_geometry) (i0 i1 i2 : Int), s.dual_ = true →
        s.max_subdivisions_ = (D : Int) →
        valid_index s i0 → valid_index s i1 → valid_index s i2 →
        ∃ s1, subdivide_triangle glm fuel s i0 i1 i2 D = .ok s1 ∧ s1.verts_ = s.verts_ ∧
          ∀ j, adj_list s1 j
            = adj_list s j ++ List.replicate (corner_count j i0 i1 i2) ⟨i0, i1, i2⟩) ∧
    ∃ s s1, subdivide_all glm fuel ⟨D, true, [], [], []⟩ = .ok s ∧ s.verts_ = [] ∧
      adj_total s = 3 * (20 * 4 ^ D) ∧
      (∀ sv ∈ s.source_verts_, sv.adjacent_triangles ≠ [] →
        ∃ vs c nrm recs, dual_polygon glm s sv = .ok (vs, c, nrm) ∧
          vs.length = sv.adjacent_triangles.length ∧
          dual_fan glm s sv = .ok recs ∧ recs.length = 3 * sv.adjacent_triangles.length) ∧
      sphere_geometry.construct glm fuel D true = .ok s1 ∧
      s1.verts_.length = 3 * (3 * 20 * 4 ^ D) := by
  constructor
  · intro s i0 i1 i2 hd hmax h0 h1 h2
    obtain ⟨f, rfl⟩ : ∃ f, fuel = f + 1 := ⟨fuel - 1, by omega⟩
    exact subdivide_leaf_dual glm f s i0 i1 i2 D hd hmax.symm h0 h1 h2
  · obtain ⟨s, s1, hs, hc, _, h2⟩ := construct_spec glm D fuel hf true
    obtain ⟨s2, hs2, _, _, _, p4, _, _, p7⟩ := subdivide_all_spec glm D fuel hf true
    have heq : s2 = s := Except.ok.inj (hs2.symm.trans hs)
    subst heq
    obtain ⟨q1, q2, q3, _⟩ := p7 rfl
    refine ⟨s2, s1, hs, q1, by rw [q2]; ring, ?_, hc, (h2 rfl).2⟩
    intro sv hsv _
    obtain ⟨j, hj, hjl⟩ := adj_len_of_mem s2 sv hsv
    have h2j : 2 ≤ sv.adjacent_triangles.length := by
      rw [← hjl]
      exact q3 j hj
    obtain ⟨vs, c, nrm, hp, hl⟩ := dual_polygon_spec glm s2 sv (p4 sv hsv) h2j
    obtain ⟨recs, hfan, hrl⟩ := dual_fan_spec glm s2 sv (p4 sv hsv) h2j
    exact ⟨vs, c, nrm, recs, hp, hl, hfan, hrl⟩

/-- C5, instance: depth 1 gives 240 fan triangles, 720 records. -/
theorem dual_adjacency_and_fans_witness :
    1 < 2 ∧ ∃ s, sphere_geometry.construct glm_fixed 2 1 true = .ok s ∧
      s.verts_.length = 720 := by
  refine ⟨by decide, ?_⟩
  obtain ⟨_, _, s1, _, _, _, _, hc, h1⟩ := dual_adjacency_and_fans glm_fixed 1 2 (by decide)
  exact ⟨s1, by simpa using hc, by simpa using h1⟩

/-- C7, as stated, fails. With max_subdivisions = -1 the constructor reports
no configuration error. Already with recursion budget 0 the outcome is
out_of_fuel, which only subdivide_triangle produces, so subdivide_triangle is
called; with budget 64 the recursion is still descending. -/
theorem negative_max_subdivisions_counterexample :
    sphere_geometry.construct glm_fixed 0 (-1) false = .error .out_of_fuel ∧
    sphere_geometry.construct glm_fixed 64 (-1) false = .error .out_of_fuel ∧
    sphere_geometry.construct glm_fixed 64 (-1) true = .error .out_of_fuel :=
  ⟨construct_negative glm_fixed 0 (-1) false (by decide),
    construct_negative glm_fixed 64 (-1) false (by decide),
    construct_negative glm_fixed 64 (-1) true (by decide)⟩

/-- C7, amended. A negative max_subdivisions is not checked. The constructor
adds the base vertices and calls subdivide_triangle at level 0; since no level
from 0 upward equals a negative max_subdivisions_, every call takes the
subdividing branch, and for every bound on the recursion depth the run is
still inside the recursion: it reaches no leaf, returns no sphere and reports
no error. -/
theorem negative_max_subdivisions_diverges (glm : glm_ops) (max_subdivisions : Int)
    (dual : Bool) (hneg : max_subdivisions < 0) :
    (∀ fuel, sphere_geometry.construct glm fuel max_subdivisions dual
      = .error .out_of_fuel) ∧
    ∀ (fuel : Nat) (s : sphere_geometry) (i0 i1 i2 level : Int),
      s.max_subdivisions_ = max_subdivisions → 0 ≤ level → map_ok s →
      valid_index s i0 → valid_index s i1 → valid_index s i2 →
      subdivide_triangle glm fuel s i0 i1 i2 level = .error .out_of_fuel :=
  ⟨fun fuel => construct_negative glm fuel max_subdivisions dual hneg,
    fun fuel s i0 i1 i2 level hmax hlev hmap h0 h1 h2 =>
      subdivide_negative glm fuel s i0 i1 i2 level (by rw [hmax]; exact hneg) hlev hmap
        h0 h1 h2⟩

/-- C7 amended, instance: max_subdivisions = -3. -/
theorem negative_max_subdivisions_diverges_witness :
    (-3 : Int) < 0 ∧
      sphere_geometry.construct glm_fixed 10 (-3) true = .error .out_of_fuel :=
  ⟨by decide, (negative_max_subdivisions_diverges glm_fixed (-3) true (by decide)).1 10⟩

/-- C9. The ordering loop of initialize_dual is a nearest-neighbour greedy
chain. For every list of n >= 2 face points the loop returns a list that is a
permutation of its input with the same element at index 0, and for every i
with 1 <= i < n - 1 the element at index i is at least as close, in
glm::length of the difference, to the element at index i - 1 as every element
at an index j > i. -/
theorem order_verts_nearest_neighbour_chain (glm : glm_ops) (verts : List vec3)
    (hn : 2 ≤ verts.length) :
    ∃ out, order_verts glm verts = .ok out ∧ out.Perm verts ∧ out.length = verts.length ∧
      out[0]? = verts[0]? ∧
      ∀ i j, 1 ≤ i → i < verts.length - 1 → i < j → j < verts.length →
        ∃ o a b, out[i - 1]? = some o ∧ out[i]? = some a ∧ out[j]? = some b ∧
          glm.length (glm.sub a o) ≤ glm.length (glm.sub b o) := by
  obtain ⟨out, hout, hperm, hpre, hrest⟩ :=
    order_loop_spec glm (verts.length + 1) 1 verts (le_refl _) hn (by omega)
  have hlen : out.length = verts.length := hperm.length_eq
  refine ⟨out, hout, hperm, hlen, hpre 0 (by omega), ?_⟩
  intro i j hi1 hi2 hij hj
  refine ⟨out[i - 1], out[i], out[j], List.getElem?_eq_getElem (by omega),
    List.getElem?_eq_getElem (by omega), List.getElem?_eq_getElem (by omega), ?_⟩
  exact hrest i j hi1 (by omega) hij _ _ _ (List.getElem?_eq_getElem (by omega))
    (List.getElem?_eq_getElem (by omega)) (List.getElem?_eq_getElem (by omega))

/-- C9, instance: three face points. -/
theorem order_verts_nearest_neighbour_chain_witness :
    2 ≤ ([⟨0, 0, 1⟩, ⟨1, 0, 0⟩, ⟨0, 1, 0⟩] : List vec3).length ∧
      ∃ out, order_verts glm_fixed [⟨0, 0, 1⟩, ⟨1, 0, 0⟩, ⟨0, 1, 0⟩] = .ok out ∧
        out.length = 3 := by
  refine ⟨by decide, ?_⟩
  obtain ⟨out, h1, _, h3, _⟩ := order_verts_nearest_neighbour_chain glm_fixed
    [⟨0, 0, 1⟩, ⟨1, 0, 0⟩, ⟨0, 1, 0⟩] (by decide)
  exact ⟨out, h1, h3⟩

/-- C10. Dual mode with maximum depth D. When initialize_dual runs, every
entry of source_verts_ has an adjacency list of length at least 2 whose
triangles hold valid indices into source_verts_. Hence verts.size() - 1 does
not wrap around, the polygon of every entry is built without an out-of-range
access and has at least 2 (so not 0) face points, and initialize_dual as a
whole returns. -/
theorem dual_adjacency_safe (glm : glm_ops) (D fuel : Nat) (hf : D < fuel) :
    ∃ s, subdivide_all glm fuel ⟨D, true, [], [], []⟩ = .ok s ∧
      (∀ sv ∈ s.source_verts_, 2 ≤ sv.adjacent_triangles.length ∧
        size_minus_one sv.adjacent_triangles.length + 1 = sv.adjacent_triangles.length ∧
        (∀ t ∈ sv.adjacent_triangles, triangle_ok s t) ∧
        ∃ vs c nrm, dual_polygon glm s sv = .ok (vs, c, nrm) ∧ 2 ≤ vs.length) ∧
      ∃ s1, initialize_dual glm s = .ok s1 := by
  obtain ⟨s, hs, _, _, _, p4, _, _, p7⟩ := subdivide_all_spec glm D fuel hf true
  obtain ⟨_, _, q3, _⟩ := p7 rfl
  have h2 : ∀ sv ∈ s.source_verts_, 2 ≤ sv.adjacent_triangles.length := by
    intro sv hsv
    obtain ⟨j, hj, hlen⟩ := adj_len_of_mem s sv hsv
    rw [← hlen]
    exact q3 j hj
  refine ⟨s, hs, ?_, ?_⟩
  · intro sv hsv
    have h := h2 sv hsv
    obtain ⟨vs, c, nrm, hp, hl⟩ := dual_polygon_spec glm s sv (p4 sv hsv) h
    refine ⟨h, ?_, p4 sv hsv, vs, c, nrm, hp, by omega⟩
    simp only [size_minus_one]
    rw [if_neg (by omega)]
    omega
  · obtain ⟨s1, e1, _⟩ := initialize_dual_spec glm s p4 h2
    exact ⟨s1, e1⟩

/-- C10, instance: depth 2. -/
theorem dual_adjacency_safe_witness :
    2 < 3 ∧ ∃ s, subdivide_all glm_fixed 3 ⟨2, true, [], [], []⟩ = .ok s ∧
      ∀ sv ∈ s.source_verts_, 2 ≤ sv.adjacent_triangles.length := by
  refine ⟨by decide, ?_⟩
  obtain ⟨s, hs, h, _⟩ := dual_adjacency_safe glm_fixed 2 3 (by decide)
  exact ⟨s, by simpa using hs, fun sv hsv => (h sv hsv).1⟩

end IcosahedronDual
